import Mathlib

/-!
Verification of the knowledge-base retrieval orchestration layer
(`app/modules/data/manager.py` and
`app/modules/agents/data/providers/graph_db_provider.py`).

The Python code is shallowly embedded: pure fragments become Lean
functions, the registry's mutable dictionaries become explicit state
records, and the asyncio interleaving of `get_service` becomes a
small-step transition system.  Python floats (result scores) are
modelled as rationals; Python's stable `list.sort` is modelled by
`List.insertionSort`, which is likewise a stable sort.
-/

/-- A search result as produced by a provider and merged by the manager:
`(id, content, metadata, score)`.  Metadata is modelled as a string map. -/
structure SearchResult where
  id : String
  content : String
  metadata : List (String × String)
  score : ℚ
deriving DecidableEq

namespace Manager

/-- The observable behaviour of one knowledge base inside
`AgentRAGServiceManager.search`: `get_service` may fail (`noService`),
`service.search` may raise (`raises`, swallowed by the manager), or the
service returns a result list (`returns`). -/
inductive KBOutcome where
  | noService
  | raises
  | returns (rs : List SearchResult)
deriving DecidableEq

/-- The results a single knowledge base contributes to `all_results`:
nothing on a resolution failure or a raised search, its list otherwise. -/
def kbResults : KBOutcome → List SearchResult
  | .noService => []
  | .raises => []
  | .returns rs => rs

/-- The accumulation loop of `AgentRAGServiceManager.search`
(`manager.py` lines 181-191): iterate the knowledge bases in the given
order and `extend` the accumulator with each one's results. -/
def searchLoop (kbs : List KBOutcome) : List SearchResult :=
  kbs.foldl (fun acc kb => acc ++ kbResults kb) []

/-- Descending-score order used by
`all_results.sort(key=lambda x: x.score, reverse=True)`. -/
def scoreDesc (a b : SearchResult) : Prop := b.score ≤ a.score

instance : DecidableRel scoreDesc :=
  fun a b => inferInstanceAs (Decidable (b.score ≤ a.score))

instance : IsTotal SearchResult scoreDesc :=
  ⟨fun a b => le_total b.score a.score⟩

instance : IsTrans SearchResult scoreDesc :=
  ⟨fun _ _ _ h1 h2 => le_trans h2 h1⟩

/-- Python's `list.sort(key=..., reverse=True)` is a stable sort; its
extensional behaviour on the score key is insertion sort under
`scoreDesc` (stable: ties keep their input order). -/
def pySortDesc (l : List SearchResult) : List SearchResult :=
  l.insertionSort scoreDesc

/-- `AgentRAGServiceManager.search` (`manager.py` lines 161-199),
structured-results branch: accumulate per-KB results, sort by score
descending with a stable sort, take the first `limit`. -/
def search (kbs : List KBOutcome) (limit : ℕ) : List SearchResult :=
  (pySortDesc (searchLoop kbs)).take limit

/-- The concrete merge-ordering scenario of the claim: per-KB scores
[0.2, 0.9, 0.5] from KB1 and [0.7] from KB2. -/
def demoKBs : List KBOutcome :=
  [ .returns [⟨"a", "", [], 2/10⟩, ⟨"b", "", [], 9/10⟩, ⟨"c", "", [], 5/10⟩],
    .returns [⟨"d", "", [], 7/10⟩] ]

end Manager

namespace Registry

/-- An `AgentRAGService` instance as the registry sees it: an identity
(model stand-in for Python object identity) and the value of
`is_initialized()`. -/
structure Service where
  sid : ℕ
  inited : Bool
deriving DecidableEq

/-- How resolving a service for a knowledge base behaves
(`manager.py` lines 88-113): `from_kb_config` returns `None`
(`noProvider`), `service.initialize()` returns `False` (`initFails`),
creation raises (`raises`), or everything succeeds (`ok`). -/
inductive Resolution where
  | noProvider
  | initFails
  | raises
  | ok
deriving DecidableEq

/-- Registry state: the `_services` dict, the key set of the
`_initialization_locks` dict, and a counter producing fresh instance
identities. -/
structure RegState where
  services : List (String × Service)
  locks : List String
  counter : ℕ
deriving DecidableEq

/-- Dict lookup on the association-list model of `_services`. -/
def lookupKey (k : String) : List (String × Service) → Option Service
  | [] => none
  | (a, v) :: t => if a = k then some v else lookupKey k t

/-- `del d[k]` on the association-list model. -/
def eraseKey (k : String) (l : List (String × Service)) : List (String × Service) :=
  l.filter (fun p => p.1 ≠ k)

/-- `d[k] = v` on the association-list model (replaces in place, like a
Python dict). -/
def putKey (k : String) (v : Service) : List (String × Service) → List (String × Service)
  | [] => [(k, v)]
  | (a, w) :: t => if a = k then (k, v) :: t else (a, w) :: putKey k v t

/-- `AgentRAGServiceManager._remove_service` (lines 368-373): drop the
kb from both the service cache and the lock map. -/
def removeService (kb : String) (σ : RegState) : RegState :=
  { σ with
    services := eraseKey kb σ.services
    locks := σ.locks.filter (fun x => x ≠ kb) }

/-- The resolution attempt inside the critical section of `get_service`
(lines 88-113): construct, run `initialize()`, and cache only on
success; any failure yields `None` and caches nothing. -/
def doInit (cfg : String → Resolution) (kb : String) (σ : RegState) :
    Option Service × RegState :=
  match cfg kb with
  | .noProvider => (none, σ)
  | .initFails => (none, σ)
  | .raises => (none, σ)
  | .ok =>
      let s : Service := ⟨σ.counter, true⟩
      (some s, { σ with services := putKey kb s σ.services, counter := σ.counter + 1 })

/-- Lines 79-80 of `get_service`: create the per-kb lock if absent. -/
def ensureLock (kb : String) (σ : RegState) : RegState :=
  if kb ∈ σ.locks then σ else { σ with locks := σ.locks ++ [kb] }

/-- The lock-guarded tail of `get_service` (lines 78-113): ensure a
per-kb lock exists, re-check the cache under the lock (double-checked
locking), then attempt resolution.  The sequential model runs the
critical section atomically; the interleaved behaviour is modelled
separately by `ConcInit`. -/
def getServiceLocked (cfg : String → Resolution) (kb : String) (σ : RegState) :
    Option Service × RegState :=
  match lookupKey kb (ensureLock kb σ).services with
  | some s =>
      if s.inited then (some s, ensureLock kb σ)
      else doInit cfg kb (ensureLock kb σ)
  | none => doInit cfg kb (ensureLock kb σ)

/-- `AgentRAGServiceManager.get_service` (lines 54-113): return a cached
initialized service; evict a cached service whose `is_initialized()` is
false; otherwise resolve under the per-kb lock. -/
def getService (cfg : String → Resolution) (kb : String) (σ : RegState) :
    Option Service × RegState :=
  match lookupKey kb σ.services with
  | some s =>
      if s.inited then (some s, σ)
      else getServiceLocked cfg kb (removeService kb σ)
  | none => getServiceLocked cfg kb σ

/-- `AgentRAGServiceManager.add_document` (lines 115-141): `{}` when the
service cannot be resolved, else the service's per-provider result map
(passed in as `svcRes`, since `AgentRAGService` itself is an external
collaborator here). -/
def addDocument (cfg : String → Resolution) (svcRes : List (String × Bool))
    (kb : String) (σ : RegState) : List (String × Bool) × RegState :=
  match getService cfg kb σ with
  | (none, σ') => ([], σ')
  | (some _, σ') => (svcRes, σ')

/-- `AgentRAGServiceManager.delete_document` (lines 143-159): same
degrade-to-`{}` pattern. -/
def deleteDocument (cfg : String → Resolution) (svcRes : List (String × Bool))
    (kb : String) (σ : RegState) : List (String × Bool) × RegState :=
  match getService cfg kb σ with
  | (none, σ') => ([], σ')
  | (some _, σ') => (svcRes, σ')

/-- `AgentRAGServiceManager.get_document_ids` (lines 201-215): `[]` when
the service cannot be resolved. -/
def getDocumentIdsR (cfg : String → Resolution) (svcIds : List String)
    (kb : String) (σ : RegState) : List String × RegState :=
  match getService cfg kb σ with
  | (none, σ') => ([], σ')
  | (some _, σ') => (svcIds, σ')

/-- `AgentRAGServiceManager.finalize_legra` (lines 217-235): `False`
when the service cannot be resolved or has no LEGRA provider. -/
def finalizeLegra (cfg : String → Resolution) (hasLegra svcFin : Bool)
    (kb : String) (σ : RegState) : Bool × RegState :=
  match getService cfg kb σ with
  | (none, σ') => (false, σ')
  | (some _, σ') => (if hasLegra then svcFin else false, σ')

/-- `AgentRAGServiceManager.cleanup_service` (lines 375-384): under the
registry-level lock, `_remove_service(str(kb_id))`. -/
def cleanupService (kb : String) (σ : RegState) : RegState :=
  removeService kb σ

/-- All cached instance identities were minted by the counter. -/
def wf (σ : RegState) : Prop := ∀ p ∈ σ.services, p.2.sid < σ.counter

end Registry

namespace ConcInit

/-!
Small-step interleaving model of N concurrent `get_service` calls for
one previously-unseen kb_id (`manager.py` lines 54-113) under asyncio's
cooperative scheduling: code between awaits runs atomically, and the
suspension points are the contended `async with lock` acquisition and
`await service.initialize()`.  Because the `_initialization_locks`
check-and-create (lines 79-80) has no await in it, all tasks share one
lock object, and because an uncontended asyncio lock acquisition does
not yield, a task that finds the lock free proceeds atomically from the
cache check through the double-check to the point where `initialize()`
suspends.  The lock is therefore held exactly while some task is inside
its initialization await, which the model exploits by representing
"lock held" as "some task is in the `running` state".  `_remove_service`
is never invoked in this scenario (the cache only ever holds
successfully initialized services), so lock deletion needs no
modelling.  Each `initialize()` invocation is numbered; the `outcome`
oracle says whether the k-th invocation succeeds.  A successful
invocation k caches instance k. -/

/-- Where one task is in its `get_service` call. -/
inductive TaskSt where
  | start
  | waiting
  | running (inv : ℕ)
  | done (res : Option ℕ)
deriving DecidableEq

/-- Global state: all task positions, the `_services` entry for the one
kb (`none` = absent, `some k` = the instance cached by invocation k),
and how many `initialize()` invocations have started. -/
structure CState where
  tasks : List TaskSt
  cache : Option ℕ
  initCount : ℕ
deriving DecidableEq

def isRunning : TaskSt → Bool
  | .running _ => true
  | _ => false

/-- Number of `initialize()` calls currently in flight. -/
def inFlight (σ : CState) : ℕ := σ.tasks.countP isRunning

/-- One atomic scheduler step: run task `i` from its current suspension
point to its next one (or to completion).  A task whose next step is
not enabled (waiting while the lock is held, or already done) leaves
the state unchanged. -/
def step (outcome : ℕ → Bool) (σ : CState) (i : ℕ) : CState :=
  match σ.tasks[i]? with
  | none => σ
  | some st =>
    match st with
    | .done _ => σ
    | .start =>
        match σ.cache with
        | some d => { σ with tasks := σ.tasks.set i (.done (some d)) }
        | none =>
            if inFlight σ = 0 then
              { σ with
                tasks := σ.tasks.set i (.running σ.initCount)
                initCount := σ.initCount + 1 }
            else { σ with tasks := σ.tasks.set i .waiting }
    | .waiting =>
        if inFlight σ = 0 then
          match σ.cache with
          | some d => { σ with tasks := σ.tasks.set i (.done (some d)) }
          | none =>
              { σ with
                tasks := σ.tasks.set i (.running σ.initCount)
                initCount := σ.initCount + 1 }
        else σ
    | .running inv =>
        if outcome inv then
          { σ with tasks := σ.tasks.set i (.done (some inv)), cache := some inv }
        else { σ with tasks := σ.tasks.set i (.done none) }

/-- Run a whole schedule (arbitrary interleaving). -/
def run (outcome : ℕ → Bool) (σ : CState) (sched : List ℕ) : CState :=
  sched.foldl (step outcome) σ

/-- N tasks about to call `get_service` for a never-before-seen kb. -/
def initState (n : ℕ) : CState := ⟨List.replicate n .start, none, 0⟩

/-- Invariant charted by the success case (`outcome 0 = true`): at most
one initialization ever starts, it is invocation 0, and every finished
task observed instance 0. -/
def InvS (σ : CState) : Prop :=
  inFlight σ ≤ 1
  ∧ σ.initCount ≤ 1
  ∧ (σ.initCount = 0 → σ.cache = none ∧ ∀ st ∈ σ.tasks, st = .start ∨ st = .waiting)
  ∧ (∀ inv, TaskSt.running inv ∈ σ.tasks → inv = 0)
  ∧ (σ.initCount = 1 →
      (σ.cache = some 0 ∨ (σ.cache = none ∧ TaskSt.running 0 ∈ σ.tasks)))
  ∧ (σ.cache = none ∨ σ.cache = some 0)
  ∧ (∀ r, TaskSt.done r ∈ σ.tasks → r = some 0)

end ConcInit

/-- Python's `str.startswith(pre)`, computed on character lists. -/
def strStartsWith (s pre : String) : Bool :=
  pre.toList.isPrefixOf s.toList

namespace LoadItems

/-!
Model of `AgentRAGServiceManager.load_knowledge_items`
(`manager.py` lines 237-366).  The observable behaviour is the ordered
trace of service calls (`get_document_ids`, `delete_document`,
`add_document`); successive awaits make the trace sequential.  External
collaborators are supplied through an environment: the per-kb result of
`service.get_document_ids`, and the `FileTextExtractor` outcomes for
local paths and for downloaded URLs (`none` models a raised
exception).  A faithfully modelled detail: in the URL branch
(lines 303-306) the source downloads and extracts into `temp_content`
but then executes `contents.append(content)` — `content` is the loop
variable of the later `zip` loop (line 343), so on first use it is
unbound (raising `UnboundLocalError`, caught at line 327) and on later
uses it holds a stale value; the model threads that variable
explicitly.  File entries are modelled in their string form; the legacy
dict form (lines 310-325) is not exercised by any claim.  Items of
`type == "url"` are modelled with their content already fetched into
`item.content` (`set_url_content_if_has_rag` is an external
collaborator that mutates `item.content` before it is read). -/

/-- A knowledge item (`KBRead`) as read by `load_knowledge_items`. -/
structure KItem where
  id : String
  type : String
  content : String
  files : List String
  name : String
  description : String
  legraFinalize : Bool
deriving DecidableEq

/-- External collaborator behaviour. -/
structure LoadEnv where
  existingIds : String → List String
  extract : String → Option String
  urlExtract : String → Option String

/-- One observable service call. -/
inductive Ev where
  | getIds (kb : String)
  | del (docId : String)
  | add (docId content : String)
deriving DecidableEq

/-- Line 303: `file_item.startswith("http://") or
file_item.startswith("https://")`. -/
def isUrl (s : String) : Bool :=
  strStartsWith s "http://" || strStartsWith s "https://"

/-- The doc id of the idx-th file of an item (line 302). -/
def fileDocId (kb : String) (idx : ℕ) (loc : String) : String :=
  "KB:" ++ kb ++ "#file_" ++ toString idx ++ ":" ++ loc

/-- The doc id of an inline-content item (line 285). -/
def contentDocId (kb : String) : String := "KB:" ++ kb ++ "#content"

/-- One iteration of the per-file loop (lines 298-334) over state
`(doc_ids, contents, content-variable)`: the doc id is appended first;
a failed extraction (or the unbound/stale `content` slip in the URL
branch) is caught and logged, leaving `contents` short. -/
def contentStep (env : LoadEnv) (ct : List String × Option String) (loc : String) :
    List String × Option String :=
  if isUrl loc then
    match env.urlExtract loc with
    | none => ct
    | some _ =>
        match ct.2 with
        | none => ct
        | some c => (ct.1 ++ [c], ct.2)
  else
    match env.extract loc with
    | none => ct
    | some t => (ct.1 ++ [t], ct.2)

def fileStep (env : LoadEnv) (kb : String)
    (st : List String × List String × Option String) (p : ℕ × String) :
    List String × List String × Option String :=
  (st.1 ++ [fileDocId kb p.1 p.2], contentStep env st.2 p.2)

/-- Lines 285-341: resolve one item into `(doc_ids, contents)` plus the
threaded `content` variable. -/
def resolveItem (env : LoadEnv) (kb : String) (item : KItem) (cv : Option String) :
    List String × List String × Option String :=
  if item.type = "file" ∧ item.files ≠ [] then
    item.files.enum.foldl (fileStep env kb) ([], [], cv)
  else
    ([contentDocId kb], [item.content], cv)

/-- Lines 343-359: `zip(doc_ids, contents)` pairs each doc id with a
content and calls `add_document` once per pair; the zip loop reassigns
the `content` variable on each iteration. -/
def itemAdds (env : LoadEnv) (kb : String) (item : KItem) (cv : Option String) :
    List Ev × Option String :=
  let r := resolveItem env kb item cv
  let pairs := r.1.zip r.2.1
  (pairs.map (fun p => Ev.add p.1 p.2), pairs.foldl (fun _ p => some p.2) r.2.2)

/-- The per-item loop of one kb group (lines 283-364). -/
def itemsAdds (env : LoadEnv) (kb : String) (items : List KItem)
    (cv : Option String) : List Ev × Option String :=
  items.foldl
    (fun acc item =>
      let r := itemAdds env kb item acc.2
      (acc.1 ++ r.1, r.2))
    ([], cv)

/-- Modelled from the spec: `bulk_delete_documents(service, ids)` lives
in `app/modules/data/utils/doc.py`, which is not among the sources; per
the spec's update semantics it issues one awaited `delete_document` per
given id, all completing before the caller proceeds. -/
def bulkDeleteEvents (ids : List String) : List Ev := ids.map Ev.del

/-- One kb group (lines 262-364): on `action == "update"`, fetch the
existing doc ids and delete them all, then process the group's items. -/
def loadGroup (env : LoadEnv) (kb : String) (items : List KItem)
    (action : String) (cv : Option String) : List Ev × Option String :=
  let r := itemsAdds env kb items cv
  ((if action = "update"
      then Ev.getIds kb :: bulkDeleteEvents (env.existingIds kb)
      else [])
    ++ r.1, r.2)

/-- Lines 254-260: group items by `str(item.id)` in first-occurrence
order (Python dict insertion order). -/
def groupKeys (items : List KItem) : List String :=
  items.foldl (fun ks item => if item.id ∈ ks then ks else ks ++ [item.id]) []

/-- `load_knowledge_items(knowledge_items, action)`: the full ordered
trace of service calls. -/
def loadKnowledgeItems (env : LoadEnv) (items : List KItem) (action : String) :
    List Ev :=
  ((groupKeys items).foldl
    (fun acc kb =>
      let r := loadGroup env kb (items.filter (fun it => it.id = kb)) action acc.2
      (acc.1 ++ r.1, r.2))
    (([] : List Ev), (none : Option String))).1

end LoadItems

namespace GraphDB

/-!
Model of `GraphDBProvider` (`graph_db_provider.py`).  The Neo4j store
holds `Document` nodes, `Chunk` nodes linked to their document, and
keyword edges; a chunk's `HAS_KEYWORD` edges are kept inline on the
chunk node (`MERGE` deduplicates them, and `_extract_keywords` already
returns distinct keywords).  `_create_schema` installs a uniqueness
constraint on `Document.id`, so `CREATE` of a duplicate document raises
and is caught.  Chunking (`RecursiveCharacterTextSplitter.split_text`)
is third-party configuration, passed in as a function.  Keyword
matching is modelled for ASCII text (Python's `\w` is Unicode-aware but
every claim input is ASCII).  Where a Cypher query has no `ORDER BY`
tie-break, the model fixes store order (Neo4j leaves it unspecified);
`ORDER BY matches DESC` is modelled as a stable descending sort on
store order. -/

/-- A `Document` node. -/
structure DocNode where
  id : String
  name : String
  description : String
  content : String
deriving DecidableEq

/-- A `Chunk` node with its `HAS_KEYWORD` edge set. -/
structure ChunkNode where
  chunkId : String
  docId : String
  content : String
  chunkIndex : ℕ
  totalChunks : ℕ
  keywords : List String
deriving DecidableEq

/-- The graph store. -/
structure GStore where
  docs : List DocNode
  docKeywords : List (String × String)
  chunks : List ChunkNode
deriving DecidableEq

/-- Python's `\w` on ASCII: alphanumeric or underscore. -/
def pyIsWordChar (c : Char) : Bool := c.isAlphanum || c = '_'

/-- Python's `\s` on ASCII. -/
def pyIsSpace (c : Char) : Bool :=
  c = ' ' || c = '\t' || c = '\n' || c = '\r' || c = '\x0b' || c = '\x0c'

/-- `re.sub(r'[^\w\s]', '', text.lower())` (line 394). -/
def cleanChars (s : String) : List Char :=
  (s.toList.map Char.toLower).filter (fun c => pyIsWordChar c || pyIsSpace c)

/-- `str.split()` with no argument: split on whitespace runs, dropping
empty pieces. -/
def splitWsAux : List Char → List Char → List String
  | [], cur => if cur.isEmpty then [] else [String.mk cur.reverse]
  | c :: rest, cur =>
      if pyIsSpace c then
        if cur.isEmpty then splitWsAux rest []
        else String.mk cur.reverse :: splitWsAux rest []
      else splitWsAux rest (c :: cur)

def splitWs (cs : List Char) : List String := splitWsAux cs []

/-- The stop-word set of `_extract_keywords` (line 397). -/
def stopWords : List String :=
  ["the", "a", "an", "in", "on", "at", "to", "for", "with", "by", "of", "and",
   "or", "is", "are", "was", "were", "be", "been", "being", "have", "has",
   "had", "do", "does", "did", "but", "if", "then", "else", "when", "where",
   "why", "how", "all", "any", "both", "each", "few", "more", "most", "some",
   "such", "no", "nor", "not", "only", "own", "same", "so", "than", "too",
   "very"]

/-- Line 398: drop stop-words and tokens of length <= 2. -/
def filteredWords (s : String) : List String :=
  (splitWs (cleanChars s)).filter (fun w => w ∉ stopWords ∧ 2 < w.length)

/-- Distinct elements in first-occurrence order (the iteration order of
`collections.Counter`). -/
def dedupFirst (ws : List String) : List String :=
  ws.foldl (fun acc w => if w ∈ acc then acc else acc ++ [w]) []

/-- `_extract_keywords` (lines 385-404): clean, split, filter, then
`Counter(...).most_common(15)` — the distinct words stably sorted by
frequency descending (heapq.nlargest is stable), first 15. -/
def extractKeywords (s : String) : List String :=
  let ws := filteredWords s
  ((dedupFirst ws).insertionSort (fun a b => ws.count b ≤ ws.count a)).take 15

/-- `delete_document` (lines 182-215): delete the chunks reached from
the `Document` node, then the node itself (detaching its keyword
edges); a missing document is a no-op success.  Note this is the
behaviour when the coroutine is actually awaited. -/
def deleteDocument (docId : String) (σ : GStore) : Bool × GStore :=
  if σ.docs.any (fun d => d.id = docId) then
    (true,
      { docs := σ.docs.filter (fun d => d.id ≠ docId)
        docKeywords := σ.docKeywords.filter (fun e => e.1 ≠ docId)
        chunks := σ.chunks.filter (fun c => c.docId ≠ docId) })
  else (true, σ)

/-- `add_document` (lines 74-180).  Line 82 reads
`self.delete_document(doc_id)` — but `delete_document` is `async` and
the call is not awaited, so the returned coroutine is discarded and no
deletion ever executes; the model therefore performs no delete.  The
subsequent `CREATE` of the `Document` node violates the `document_id`
uniqueness constraint when the id already exists, the exception is
caught, and the method returns `False` with the store unchanged.
Otherwise the document node, its keyword edges, and its chunks (with
their keyword edges) are created. -/
def addDocument (split : String → List String) (docId content name description : String)
    (σ : GStore) : Bool × GStore :=
  if σ.docs.any (fun d => d.id = docId) then (false, σ)
  else
    let chunksTexts := split content
    let newChunks := chunksTexts.enum.map (fun p =>
      (⟨docId ++ "_chunk_" ++ toString p.1, docId, p.2, p.1, chunksTexts.length,
        extractKeywords p.2⟩ : ChunkNode))
    (true,
      { docs := σ.docs ++ [⟨docId, name, description, content⟩]
        docKeywords := σ.docKeywords ++ (extractKeywords content).map (fun k => (docId, k))
        chunks := σ.chunks ++ newChunks })

/-- `get_document_ids` (lines 406-428): ids of documents whose id
`STARTS WITH` `KB:{kb_id}#`. -/
def getDocumentIds (kb : String) (σ : GStore) : List String :=
  (σ.docs.filter (fun d => strStartsWith d.id ("KB:" ++ kb ++ "#"))).map
    (fun d => d.id)

/-- A search result row as `search` returns it. -/
structure GResult where
  id : String
  content : String
  name : String
  description : String
  score : ℚ
  chunkCount : ℕ
deriving DecidableEq

/-- `count(DISTINCT k)` for the keyword edges of one chunk restricted
to the query keywords (the extracted keyword list is distinct). -/
def chunkMatches (kws : List String) (c : ChunkNode) : ℕ :=
  (kws.filter (fun k => k ∈ c.keywords)).length

/-- The optional `c.doc_id IN $doc_ids` restriction. -/
def inScope (dIds : Option (List String)) (c : ChunkNode) : Bool :=
  match dIds with
  | none => true
  | some ids => c.docId ∈ ids

/-- Substring containment (`CONTAINS`), on character lists. -/
def containsSub : List Char → List Char → Bool
  | [], needle => needle.isEmpty
  | c :: t, needle => needle.isPrefixOf (c :: t) || containsSub t needle

def strContains (hay needle : String) : Bool := containsSub hay.toList needle.toList

/-- The chunk-level keyword query (lines 231-257): chunks with at least
one matching keyword edge, ordered by match count descending (stable on
store order), first `limit * 3`, then joined to their parent document
(a chunk whose document is missing drops out at the join). -/
def keywordChunkRows (kws : List String) (limit : ℕ) (dIds : Option (List String))
    (σ : GStore) : List (DocNode × ChunkNode) :=
  let cand := σ.chunks.filter (fun c => inScope dIds c ∧ 0 < chunkMatches kws c)
  let ordered := cand.insertionSort (fun a b => chunkMatches kws b ≤ chunkMatches kws a)
  (ordered.take (limit * 3)).filterMap
    (fun c => (σ.docs.find? (fun d => d.id = c.docId)).map (fun d => (d, c)))

/-- Python dict grouping: distinct parent-document ids in
first-occurrence order. -/
def groupDocIds (rows : List (DocNode × ChunkNode)) : List String :=
  rows.foldl (fun ks r => if r.1.id ∈ ks then ks else ks ++ [r.1.id]) []

def chunksOf (rows : List (DocNode × ChunkNode)) (docId : String) : List ChunkNode :=
  (rows.filter (fun r => r.1.id = docId)).map (fun r => r.2)

/-- Lines 291-294: sort a document's matched chunks by `chunk_index`
(stably) and join their contents with newlines. -/
def combineChunks (cs : List ChunkNode) : String :=
  String.intercalate "\n"
    ((cs.insertionSort (fun a b => a.chunkIndex ≤ b.chunkIndex)).map
      (fun c => c.content))

/-- Lines 266-286: `best_score` starts at 0 and takes the maximum
per-chunk score, each chunk scoring `matches / len(keywords)`. -/
def bestScore (kws : List String) (cs : List ChunkNode) : ℚ :=
  cs.foldl (fun acc c => max acc ((chunkMatches kws c : ℚ) / (kws.length : ℚ))) 0

/-- The keyword phase of `search` (lines 229-302), skipped when no
keywords were extracted. -/
def phase1 (kws : List String) (limit : ℕ) (dIds : Option (List String))
    (σ : GStore) : List GResult :=
  if kws.isEmpty then []
  else
    let rows := keywordChunkRows kws limit dIds σ
    (groupDocIds rows).map (fun did =>
      let cs := chunksOf rows did
      let meta := ((rows.find? (fun r => r.1.id = did)).map (fun r => r.1)).getD
        ⟨did, "", "", ""⟩
      ⟨did, combineChunks cs, meta.name, meta.description, bestScore kws cs,
        cs.length⟩)

/-- The content-similarity fallback query (lines 310-337): chunks whose
content contains the whole query string, excluding documents already
found, first `remaining * 3` in store order, joined to their parent
documents. -/
def contentChunkRows (q : String) (remaining : ℕ) (dIds : Option (List String))
    (existing : List String) (σ : GStore) : List (DocNode × ChunkNode) :=
  let cand := σ.chunks.filter (fun c =>
    strContains c.content q ∧ inScope dIds c ∧ c.docId ∉ existing)
  (cand.take (remaining * 3)).filterMap
    (fun c => (σ.docs.find? (fun d => d.id = c.docId)).map (fun d => (d, c)))

/-- The fallback phase of `search` (lines 305-375): runs when fewer
than `limit` documents were found, at fixed score 0.5. -/
def phase2 (q : String) (limit : ℕ) (dIds : Option (List String))
    (p1 : List GResult) (σ : GStore) : List GResult :=
  let existing := p1.map (fun r => r.id)
  let rows := contentChunkRows q (limit - p1.length) dIds existing σ
  (groupDocIds rows).map (fun did =>
    let cs := chunksOf rows did
    let meta := ((rows.find? (fun r => r.1.id = did)).map (fun r => r.1)).getD
      ⟨did, "", "", ""⟩
    ⟨did, combineChunks cs, meta.name, meta.description, (1 : ℚ) / 2, cs.length⟩)

/-- Descending score order for the final sort (line 378). -/
def gScoreDesc (a b : GResult) : Prop := b.score ≤ a.score

instance : DecidableRel gScoreDesc :=
  fun a b => inferInstanceAs (Decidable (b.score ≤ a.score))

instance : IsTotal GResult gScoreDesc :=
  ⟨fun a b => le_total b.score a.score⟩

instance : IsTrans GResult gScoreDesc :=
  ⟨fun _ _ _ h1 h2 => le_trans h2 h1⟩

/-- `search` (lines 217-383): keyword phase, fallback phase when short,
stable sort by score descending, truncate to `limit`. -/
def search (q : String) (limit : ℕ) (dIds : Option (List String)) (σ : GStore) :
    List GResult :=
  let p1 := phase1 (extractKeywords q) limit dIds σ
  let results := if p1.length < limit then p1 ++ phase2 q limit dIds p1 σ else p1
  (results.insertionSort gScoreDesc).take limit

/-- The claim's document-scoring rule, written from the claim's words:
a document scores (distinct query keywords matched by any of its
chunks) / (total query keywords). -/
def claimDocScore (q : String) (docId : String) (σ : GStore) : ℚ :=
  let kws := extractKeywords q
  (((kws.filter (fun k =>
      σ.chunks.any (fun c => c.docId = docId ∧ k ∈ c.keywords))).length : ℚ))
    / (kws.length : ℚ)

/-- The claim's concrete scenario: chunk A with keyword edges to both
`refund` and `policy`, chunk B (in another document) with an edge to
`refund` only. -/
def demoStoreAB : GStore :=
  { docs := [⟨"DA", "", "", "da"⟩, ⟨"DB", "", "", "db"⟩]
    docKeywords := []
    chunks :=
      [⟨"DA_chunk_0", "DA", "chunk A text", 0, 1, ["refund", "policy"]⟩,
       ⟨"DB_chunk_0", "DB", "chunk B text", 0, 1, ["refund"]⟩] }

/-- One document whose two chunks each match a different query keyword:
the claim's per-document scoring rule gives 1.0, the code's
best-matching-chunk rule gives 0.5. -/
def demoStoreSplit : GStore :=
  { docs := [⟨"D", "", "", "doc"⟩]
    docKeywords := []
    chunks :=
      [⟨"D_chunk_0", "D", "refund stuff", 0, 2, ["refund"]⟩,
       ⟨"D_chunk_1", "D", "policy stuff", 1, 2, ["policy"]⟩] }

end GraphDB

-- ===================================================================
-- Theorems
-- ===================================================================

theorem Manager.searchLoop_eq_join (kbs : List Manager.KBOutcome) :
    Manager.searchLoop kbs = (kbs.map Manager.kbResults).flatten := by
  suffices h : ∀ acc, kbs.foldl (fun acc kb => acc ++ Manager.kbResults kb) acc
      = acc ++ (kbs.map Manager.kbResults).flatten by
    simpa [Manager.searchLoop] using h []
  induction kbs with
  | nil => intro acc; simp
  | cons k t ih =>
    intro acc
    simp [List.foldl_cons, ih, List.append_assoc]

theorem Manager.pySortDesc_stable (l : List SearchResult) (s : ℚ) :
    (Manager.pySortDesc l).filter (fun r => decide (r.score = s))
      = l.filter (fun r => decide (r.score = s)) := by
  classical
  set p : SearchResult → Bool := fun r => decide (r.score = s) with hp
  have hc_sub : List.Sublist (l.filter p) l := List.filter_sublist l
  have hc_pw : (l.filter p).Pairwise Manager.scoreDesc := by
    have hmem : ∀ a ∈ l.filter p, ∀ b ∈ l.filter p, Manager.scoreDesc a b := by
      intro a ha b hb
      have ha' : a.score = s := by
        have := (List.mem_filter.mp ha).2
        simpa [hp] using this
      have hb' : b.score = s := by
        have := (List.mem_filter.mp hb).2
        simpa [hp] using this
      simp [Manager.scoreDesc, ha', hb']
    exact List.pairwise_of_forall_mem_list hmem
  have h1 : List.Sublist (l.filter p) (Manager.pySortDesc l) :=
    List.sublist_insertionSort hc_pw hc_sub
  have h2 : List.Sublist (l.filter p) ((Manager.pySortDesc l).filter p) := by
    have hfix : (l.filter p).filter p = l.filter p := by
      rw [List.filter_eq_self]
      intro a ha
      exact (List.mem_filter.mp ha).2
    have := List.Sublist.filter p h1
    rwa [hfix] at this
  have hperm : List.Perm (Manager.pySortDesc l) l := List.perm_insertionSort _ l
  have hlen : ((Manager.pySortDesc l).filter p).length = (l.filter p).length :=
    (hperm.filter p).length_eq
  exact (List.Sublist.eq_of_length h2 hlen.symm).symm

/-- Claim C1: the registry's multi-KB search concatenates the per-KB
result lists in the order given, stably sorts the concatenation by
score descending (ties keep source-then-original order, expressed here
as: the sort leaves each equal-score fibre of the concatenation
unchanged), and returns at most `limit` results; on per-KB scores
[0.2, 0.9, 0.5] and [0.7] with limit 3 it returns scores
[0.9, 0.7, 0.5]. -/
theorem C1_multi_kb_search_merge :
    (∀ (kbs : List Manager.KBOutcome) (limit : ℕ),
        Manager.search kbs limit
            = (Manager.pySortDesc ((kbs.map Manager.kbResults).flatten)).take limit
          ∧ (Manager.search kbs limit).Sorted Manager.scoreDesc
          ∧ (Manager.search kbs limit).length ≤ limit
          ∧ ∀ s : ℚ,
              (Manager.pySortDesc (Manager.searchLoop kbs)).filter
                  (fun r => decide (r.score = s))
                = (Manager.searchLoop kbs).filter (fun r => decide (r.score = s)))
    ∧ (Manager.search Manager.demoKBs 3).map SearchResult.score
        = [9/10, 7/10, 5/10] := by
  constructor
  · intro kbs limit
    refine ⟨by rw [Manager.search, Manager.searchLoop_eq_join], ?_, ?_, ?_⟩
    · exact List.Pairwise.sublist (List.take_sublist _ _)
        (List.sorted_insertionSort Manager.scoreDesc _)
    · exact List.length_take_le limit _
    · exact fun s => Manager.pySortDesc_stable _ s
  · norm_num [Manager.search, Manager.searchLoop, Manager.pySortDesc, Manager.demoKBs,
      Manager.kbResults, Manager.scoreDesc, List.insertionSort, List.orderedInsert]

theorem Registry.lookupKey_eraseKey_self (k : String) (l : List (String × Registry.Service)) :
    Registry.lookupKey k (Registry.eraseKey k l) = none := by
  induction l with
  | nil => rfl
  | cons p t ih =>
    by_cases h : p.1 = k
    · simpa [Registry.eraseKey, h] using ih
    · simpa [Registry.eraseKey, Registry.lookupKey, h] using ih

theorem Registry.lookupKey_eraseKey_ne {k kb : String} (h : k ≠ kb)
    (l : List (String × Registry.Service)) :
    Registry.lookupKey k (Registry.eraseKey kb l) = Registry.lookupKey k l := by
  induction l with
  | nil => rfl
  | cons p t ih =>
    obtain ⟨a, w⟩ := p
    by_cases hk : a = k
    · subst hk
      simp [Registry.eraseKey, Registry.lookupKey, h]
    · by_cases hkb : a = kb
      · subst hkb
        simp only [Registry.eraseKey, ne_eq, decide_not] at ih
        simp [Registry.eraseKey, Registry.lookupKey, Ne.symm h, ih]
      · simp only [Registry.eraseKey, ne_eq, decide_not] at ih
        simp [Registry.eraseKey, Registry.lookupKey, hk, hkb, ih]

theorem Registry.lookupKey_putKey_self (k : String) (v : Registry.Service)
    (l : List (String × Registry.Service)) :
    Registry.lookupKey k (Registry.putKey k v l) = some v := by
  induction l with
  | nil => simp [Registry.putKey, Registry.lookupKey]
  | cons p t ih =>
    obtain ⟨a, w⟩ := p
    by_cases h : a = k
    · simp [Registry.putKey, h, Registry.lookupKey]
    · simp [Registry.putKey, h, Registry.lookupKey, ih]

theorem Registry.lookupKey_mem {k : String} {v : Registry.Service}
    {l : List (String × Registry.Service)} (h : Registry.lookupKey k l = some v) :
    (k, v) ∈ l := by
  induction l with
  | nil => simp [Registry.lookupKey] at h
  | cons p t ih =>
    obtain ⟨a, w⟩ := p
    by_cases hk : a = k
    · subst hk
      simp only [Registry.lookupKey, if_pos rfl] at h
      obtain rfl := Option.some.inj h
      exact List.mem_cons_self _ _
    · simp only [Registry.lookupKey, if_neg hk] at h
      exact List.mem_cons_of_mem _ (ih h)

theorem Registry.ensureLock_services (kb : String) (σ : Registry.RegState) :
    (Registry.ensureLock kb σ).services = σ.services := by
  unfold Registry.ensureLock
  split <;> rfl

theorem Registry.ensureLock_counter (kb : String) (σ : Registry.RegState) :
    (Registry.ensureLock kb σ).counter = σ.counter := by
  unfold Registry.ensureLock
  split <;> rfl

/-- When resolution fails, the locked path returns `None` and leaves the
service cache unchanged. -/
theorem Registry.getServiceLocked_fail {cfg : String → Registry.Resolution}
    {kb : String} (σ : Registry.RegState) (hfail : cfg kb ≠ .ok)
    (hnone : Registry.lookupKey kb σ.services = none) :
    (Registry.getServiceLocked cfg kb σ).1 = none
    ∧ (Registry.getServiceLocked cfg kb σ).2.services = σ.services := by
  unfold Registry.getServiceLocked
  rw [Registry.ensureLock_services, hnone]
  cases hc : cfg kb <;>
    simp_all [Registry.doInit, Registry.ensureLock_services]

/-- When resolution succeeds, the locked path returns a fresh
initialized instance and caches it. -/
theorem Registry.getServiceLocked_ok {cfg : String → Registry.Resolution}
    {kb : String} (σ : Registry.RegState) (hok : cfg kb = .ok)
    (hnone : Registry.lookupKey kb σ.services = none) :
    (Registry.getServiceLocked cfg kb σ).1 = some ⟨σ.counter, true⟩
    ∧ Registry.lookupKey kb (Registry.getServiceLocked cfg kb σ).2.services
        = some ⟨σ.counter, true⟩ := by
  unfold Registry.getServiceLocked
  rw [Registry.ensureLock_services, hnone]
  simp [Registry.doInit, hok, Registry.ensureLock_services, Registry.ensureLock_counter,
    Registry.lookupKey_putKey_self]

/-- Claim C6: when service resolution fails for a knowledge base
(construction returns null, its initialization reports failure, or
creation raises), `get_service` returns null without caching anything
for that kb, and the dependent registry operations degrade:
`add_document` and `delete_document` return the empty result map,
`get_document_ids` returns `[]`, and `finalize_legra` returns
`False`. -/
theorem C6_resolution_failure_degrades (cfg : String → Registry.Resolution)
    (kb : String) (σ : Registry.RegState) (svcRes : List (String × Bool))
    (svcIds : List String) (hasL svcFin : Bool)
    (hfail : cfg kb ≠ .ok)
    (hmiss : ∀ s, Registry.lookupKey kb σ.services = some s → s.inited = false) :
    (Registry.getService cfg kb σ).1 = none
    ∧ Registry.lookupKey kb (Registry.getService cfg kb σ).2.services = none
    ∧ (Registry.addDocument cfg svcRes kb σ).1 = []
    ∧ (Registry.deleteDocument cfg svcRes kb σ).1 = []
    ∧ (Registry.getDocumentIdsR cfg svcIds kb σ).1 = []
    ∧ (Registry.finalizeLegra cfg hasL svcFin kb σ).1 = false := by
  have hmain : (Registry.getService cfg kb σ).1 = none
      ∧ Registry.lookupKey kb (Registry.getService cfg kb σ).2.services = none := by
    unfold Registry.getService
    cases hl : Registry.lookupKey kb σ.services with
    | none =>
      have h := Registry.getServiceLocked_fail σ hfail hl
      exact ⟨h.1, by rw [h.2, hl]⟩
    | some s =>
      have hbad : s.inited = false := hmiss s hl
      have hnone : Registry.lookupKey kb (Registry.removeService kb σ).services = none :=
        Registry.lookupKey_eraseKey_self kb σ.services
      have h := Registry.getServiceLocked_fail (Registry.removeService kb σ) hfail hnone
      simp only [hbad, Bool.false_eq_true, if_false]
      exact ⟨h.1, by rw [h.2, hnone]⟩
  refine ⟨hmain.1, hmain.2, ?_, ?_, ?_, ?_⟩ <;>
    simp only [Registry.addDocument, Registry.deleteDocument, Registry.getDocumentIdsR,
      Registry.finalizeLegra] <;>
    rw [show Registry.getService cfg kb σ
        = ((Registry.getService cfg kb σ).1, (Registry.getService cfg kb σ).2) from rfl,
      hmain.1]

theorem C6_resolution_failure_degrades_witness :
    (Registry.getService (fun _ => Registry.Resolution.initFails) "kb1"
        ⟨[], [], 0⟩).1 = none
    ∧ Registry.lookupKey "kb1"
        (Registry.getService (fun _ => Registry.Resolution.initFails) "kb1"
          ⟨[], [], 0⟩).2.services = none
    ∧ (Registry.addDocument (fun _ => Registry.Resolution.initFails)
        [("graph", true)] "kb1" ⟨[], [], 0⟩).1 = []
    ∧ (Registry.deleteDocument (fun _ => Registry.Resolution.initFails)
        [("graph", true)] "kb1" ⟨[], [], 0⟩).1 = []
    ∧ (Registry.getDocumentIdsR (fun _ => Registry.Resolution.initFails)
        ["KB:kb1#content"] "kb1" ⟨[], [], 0⟩).1 = []
    ∧ (Registry.finalizeLegra (fun _ => Registry.Resolution.initFails)
        true true "kb1" ⟨[], [], 0⟩).1 = false :=
  C6_resolution_failure_degrades _ "kb1" _ [("graph", true)] ["KB:kb1#content"] true true
    (by decide) (by intro s h; simp [Registry.lookupKey] at h)

/-- Claim C7: a cached service whose `is_initialized()` reports false at
the start of `get_service` is evicted; the call never returns the
broken instance, and on success returns a freshly constructed,
initialized instance distinct from the evicted one. -/
theorem C7_stale_entry_evicted (cfg : String → Registry.Resolution)
    (kb : String) (σ : Registry.RegState) (s : Registry.Service)
    (hs : Registry.lookupKey kb σ.services = some s)
    (hbad : s.inited = false) (hwf : Registry.wf σ) :
    ((Registry.getService cfg kb σ).1 = none
      ∨ (Registry.getService cfg kb σ).1 = some ⟨σ.counter, true⟩)
    ∧ (Registry.getService cfg kb σ).1 ≠ some s
    ∧ Registry.lookupKey kb (Registry.getService cfg kb σ).2.services ≠ some s
    ∧ (cfg kb ≠ .ok → (Registry.getService cfg kb σ).1 = none) := by
  have hsid : s.sid < σ.counter := hwf (kb, s) (Registry.lookupKey_mem hs)
  have hne : s ≠ (⟨σ.counter, true⟩ : Registry.Service) := by
    intro he
    rw [he] at hsid
    exact lt_irrefl _ hsid
  have hnone : Registry.lookupKey kb (Registry.removeService kb σ).services = none :=
    Registry.lookupKey_eraseKey_self kb σ.services
  have hcnt : (Registry.removeService kb σ).counter = σ.counter := rfl
  have hred : Registry.getService cfg kb σ
      = Registry.getServiceLocked cfg kb (Registry.removeService kb σ) := by
    unfold Registry.getService
    rw [hs]
    simp [hbad]
  cases hc : cfg kb with
  | ok =>
    have h := Registry.getServiceLocked_ok (Registry.removeService kb σ) hc hnone
    rw [hcnt] at h
    refine ⟨Or.inr (by rw [hred]; exact h.1), ?_, ?_, ?_⟩
    · rw [hred, h.1]
      intro he
      exact hne (Option.some.inj he).symm
    · rw [hred]
      rw [h.2]
      intro he
      exact hne (Option.some.inj he).symm
    · intro hne'
      exact absurd rfl hne'
  | noProvider =>
    have h := @Registry.getServiceLocked_fail cfg kb (Registry.removeService kb σ)
      (by rw [hc]; intro he; exact Registry.Resolution.noConfusion he) hnone
    exact ⟨Or.inl (by rw [hred]; exact h.1), by rw [hred, h.1]; simp,
      by rw [hred, h.2, hnone]; simp, fun _ => by rw [hred]; exact h.1⟩
  | initFails =>
    have h := @Registry.getServiceLocked_fail cfg kb (Registry.removeService kb σ)
      (by rw [hc]; intro he; exact Registry.Resolution.noConfusion he) hnone
    exact ⟨Or.inl (by rw [hred]; exact h.1), by rw [hred, h.1]; simp,
      by rw [hred, h.2, hnone]; simp, fun _ => by rw [hred]; exact h.1⟩
  | raises =>
    have h := @Registry.getServiceLocked_fail cfg kb (Registry.removeService kb σ)
      (by rw [hc]; intro he; exact Registry.Resolution.noConfusion he) hnone
    exact ⟨Or.inl (by rw [hred]; exact h.1), by rw [hred, h.1]; simp,
      by rw [hred, h.2, hnone]; simp, fun _ => by rw [hred]; exact h.1⟩

theorem C7_stale_entry_evicted_witness :
    ((Registry.getService (fun _ => Registry.Resolution.ok) "kb1"
        ⟨[("kb1", ⟨0, false⟩)], ["kb1"], 1⟩).1 = none
      ∨ (Registry.getService (fun _ => Registry.Resolution.ok) "kb1"
          ⟨[("kb1", ⟨0, false⟩)], ["kb1"], 1⟩).1 = some ⟨1, true⟩)
    ∧ (Registry.getService (fun _ => Registry.Resolution.ok) "kb1"
        ⟨[("kb1", ⟨0, false⟩)], ["kb1"], 1⟩).1 ≠ some ⟨0, false⟩
    ∧ Registry.lookupKey "kb1"
        (Registry.getService (fun _ => Registry.Resolution.ok) "kb1"
          ⟨[("kb1", ⟨0, false⟩)], ["kb1"], 1⟩).2.services ≠ some ⟨0, false⟩
    ∧ ((fun _ => Registry.Resolution.ok) "kb1" ≠ Registry.Resolution.ok →
        (Registry.getService (fun _ => Registry.Resolution.ok) "kb1"
          ⟨[("kb1", ⟨0, false⟩)], ["kb1"], 1⟩).1 = none) :=
  C7_stale_entry_evicted _ "kb1" _ ⟨0, false⟩ (by simp [Registry.lookupKey]) rfl
    (by intro p hp; simp at hp; simp [hp])

/-- Claim C10: `cleanup_service(kb_id)` removes at most the entry for
`kb_id` from the service cache and the lock map, and leaves every other
key's cached service and lock membership (and the rest of the registry
state) unchanged. -/
theorem C10_cleanup_service_frame (σ : Registry.RegState) (kb k : String)
    (h : k ≠ kb) :
    Registry.lookupKey k (Registry.cleanupService kb σ).services
        = Registry.lookupKey k σ.services
    ∧ (k ∈ (Registry.cleanupService kb σ).locks ↔ k ∈ σ.locks)
    ∧ Registry.lookupKey kb (Registry.cleanupService kb σ).services = none
    ∧ kb ∉ (Registry.cleanupService kb σ).locks
    ∧ (Registry.cleanupService kb σ).counter = σ.counter := by
  refine ⟨Registry.lookupKey_eraseKey_ne h σ.services, ?_,
    Registry.lookupKey_eraseKey_self kb σ.services, ?_, rfl⟩
  · simp [Registry.cleanupService, Registry.removeService, List.mem_filter, h]
  · simp [Registry.cleanupService, Registry.removeService, List.mem_filter]

theorem C10_cleanup_service_frame_witness :
    Registry.lookupKey "y"
        (Registry.cleanupService "x"
          ⟨[("x", ⟨0, true⟩), ("y", ⟨1, true⟩)], ["x", "y"], 2⟩).services
        = Registry.lookupKey "y"
            (⟨[("x", ⟨0, true⟩), ("y", ⟨1, true⟩)], ["x", "y"], 2⟩ :
              Registry.RegState).services
    ∧ ("y" ∈ (Registry.cleanupService "x"
          ⟨[("x", ⟨0, true⟩), ("y", ⟨1, true⟩)], ["x", "y"], 2⟩).locks
        ↔ "y" ∈ (⟨[("x", ⟨0, true⟩), ("y", ⟨1, true⟩)], ["x", "y"], 2⟩ :
            Registry.RegState).locks)
    ∧ Registry.lookupKey "x"
        (Registry.cleanupService "x"
          ⟨[("x", ⟨0, true⟩), ("y", ⟨1, true⟩)], ["x", "y"], 2⟩).services = none
    ∧ "x" ∉ (Registry.cleanupService "x"
        ⟨[("x", ⟨0, true⟩), ("y", ⟨1, true⟩)], ["x", "y"], 2⟩).locks
    ∧ (Registry.cleanupService "x"
        ⟨[("x", ⟨0, true⟩), ("y", ⟨1, true⟩)], ["x", "y"], 2⟩).counter
        = (⟨[("x", ⟨0, true⟩), ("y", ⟨1, true⟩)], ["x", "y"], 2⟩ :
            Registry.RegState).counter :=
  C10_cleanup_service_frame _ "x" "y" (by decide)

theorem ConcInit.countP_set_exchange (p : ConcInit.TaskSt → Bool) :
    ∀ (l : List ConcInit.TaskSt) (i : ℕ) (st v : ConcInit.TaskSt),
      l[i]? = some st →
      (l.set i v).countP p + (if p st then 1 else 0)
        = l.countP p + (if p v then 1 else 0) := by
  intro l
  induction l with
  | nil => intro i st v h; simp at h
  | cons a t ih =>
    intro i st v h
    cases i with
    | zero =>
      simp only [List.getElem?_cons_zero, Option.some.injEq] at h
      subst h
      simp only [List.set_cons_zero, List.countP_cons]
      omega
    | succ j =>
      simp only [List.getElem?_cons_succ] at h
      simp only [List.set_cons_succ, List.countP_cons]
      have := ih j st v h
      omega

theorem ConcInit.mem_set_of_ne :
    ∀ (l : List ConcInit.TaskSt) (i : ℕ) (st v a : ConcInit.TaskSt),
      l[i]? = some st → a ∈ l → a ≠ st → a ∈ l.set i v := by
  intro l
  induction l with
  | nil => intro i st v a h; simp at h
  | cons b t ih =>
    intro i st v a h hmem hne
    cases i with
    | zero =>
      simp only [List.getElem?_cons_zero, Option.some.injEq] at h
      subst h
      rcases List.mem_cons.mp hmem with rfl | hm
      · exact absurd rfl hne
      · exact List.mem_cons_of_mem _ hm
    | succ j =>
      simp only [List.getElem?_cons_succ] at h
      rcases List.mem_cons.mp hmem with rfl | hm
      · exact List.mem_cons_self _ _
      · exact List.mem_cons_of_mem _ (ih j st v a h hm hne)


theorem ConcInit.step_length (outcome : ℕ → Bool) (σ : ConcInit.CState) (i : ℕ) :
    (ConcInit.step outcome σ i).tasks.length = σ.tasks.length := by
  cases hg : σ.tasks[i]? with
  | none => simp [ConcInit.step, hg]
  | some st =>
    cases st with
    | start =>
      cases hc : σ.cache with
      | some d => simp [ConcInit.step, hg, hc]
      | none =>
        by_cases hfl : ConcInit.inFlight σ = 0 <;>
          simp [ConcInit.step, hg, hc, hfl]
    | waiting =>
      by_cases hfl : ConcInit.inFlight σ = 0
      · cases hc : σ.cache <;> simp [ConcInit.step, hg, hfl, hc]
      · simp [ConcInit.step, hg, hfl]
    | running inv =>
      by_cases ho : outcome inv = true <;> simp [ConcInit.step, hg, ho]
    | done r => simp [ConcInit.step, hg]

theorem ConcInit.run_length (outcome : ℕ → Bool) (sched : List ℕ) (σ : ConcInit.CState) :
    (ConcInit.run outcome σ sched).tasks.length = σ.tasks.length := by
  induction sched generalizing σ with
  | nil => rfl
  | cons i rest ih =>
    rw [ConcInit.run, List.foldl_cons, ← ConcInit.run, ih,
      ConcInit.step_length]

theorem ConcInit.step_InvA (outcome : ℕ → Bool) (σ : ConcInit.CState) (i : ℕ)
    (h : ConcInit.inFlight σ ≤ 1) :
    ConcInit.inFlight (ConcInit.step outcome σ i) ≤ 1 := by
  cases hg : σ.tasks[i]? with
  | none =>
    have hstep : ConcInit.step outcome σ i = σ := by
      simp only [ConcInit.step, hg]
    rw [hstep]; exact h
  | some st =>
    cases st with
    | start =>
      cases hc : σ.cache with
      | some d =>
        have hx := ConcInit.countP_set_exchange ConcInit.isRunning σ.tasks i
          ConcInit.TaskSt.start (ConcInit.TaskSt.done (some d)) hg
        simp [ConcInit.isRunning] at hx
        have hstep : ConcInit.step outcome σ i
            = { tasks := σ.tasks.set i (ConcInit.TaskSt.done (some d)),
                cache := σ.cache, initCount := σ.initCount } := by
          simp only [ConcInit.step, hg, hc]
        rw [hstep]
        simp only [ConcInit.inFlight] at h ⊢
        omega
      | none =>
        by_cases hfl : ConcInit.inFlight σ = 0
        · have hx := ConcInit.countP_set_exchange ConcInit.isRunning σ.tasks i
            ConcInit.TaskSt.start (ConcInit.TaskSt.running σ.initCount) hg
          simp [ConcInit.isRunning] at hx
          have hstep : ConcInit.step outcome σ i
              = { tasks := σ.tasks.set i (ConcInit.TaskSt.running σ.initCount),
                  cache := σ.cache, initCount := σ.initCount + 1 } := by
            simp only [ConcInit.step, hg, hc]
            rw [if_pos hfl]
          rw [hstep]
          simp only [ConcInit.inFlight] at h hfl ⊢
          omega
        · have hx := ConcInit.countP_set_exchange ConcInit.isRunning σ.tasks i
            ConcInit.TaskSt.start ConcInit.TaskSt.waiting hg
          simp [ConcInit.isRunning] at hx
          have hstep : ConcInit.step outcome σ i
              = { tasks := σ.tasks.set i ConcInit.TaskSt.waiting,
                  cache := σ.cache, initCount := σ.initCount } := by
            simp only [ConcInit.step, hg, hc]
            rw [if_neg hfl]
          rw [hstep]
          simp only [ConcInit.inFlight] at h ⊢
          omega
    | waiting =>
      by_cases hfl : ConcInit.inFlight σ = 0
      · cases hc : σ.cache with
        | some d =>
          have hx := ConcInit.countP_set_exchange ConcInit.isRunning σ.tasks i
            ConcInit.TaskSt.waiting (ConcInit.TaskSt.done (some d)) hg
          simp [ConcInit.isRunning] at hx
          have hstep : ConcInit.step outcome σ i
              = { tasks := σ.tasks.set i (ConcInit.TaskSt.done (some d)),
                  cache := σ.cache, initCount := σ.initCount } := by
            simp only [ConcInit.step, hg, hc]
            rw [if_pos hfl]
          rw [hstep]
          simp only [ConcInit.inFlight] at h ⊢
          omega
        | none =>
          have hx := ConcInit.countP_set_exchange ConcInit.isRunning σ.tasks i
            ConcInit.TaskSt.waiting (ConcInit.TaskSt.running σ.initCount) hg
          simp [ConcInit.isRunning] at hx
          have hstep : ConcInit.step outcome σ i
              = { tasks := σ.tasks.set i (ConcInit.TaskSt.running σ.initCount),
                  cache := σ.cache, initCount := σ.initCount + 1 } := by
            simp only [ConcInit.step, hg, hc]
            rw [if_pos hfl]
          rw [hstep]
          simp only [ConcInit.inFlight] at h hfl ⊢
          omega
      · have hstep : ConcInit.step outcome σ i = σ := by
          simp only [ConcInit.step, hg]
          rw [if_neg hfl]
        rw [hstep]; exact h
    | running inv =>
      by_cases ho : outcome inv = true
      · have hx := ConcInit.countP_set_exchange ConcInit.isRunning σ.tasks i
          (ConcInit.TaskSt.running inv) (ConcInit.TaskSt.done (some inv)) hg
        simp [ConcInit.isRunning] at hx
        have hstep : ConcInit.step outcome σ i
            = { tasks := σ.tasks.set i (ConcInit.TaskSt.done (some inv)),
                cache := some inv, initCount := σ.initCount } := by
          simp only [ConcInit.step, hg]
          rw [if_pos ho]
        rw [hstep]
        simp only [ConcInit.inFlight] at h ⊢
        omega
      · have hx := ConcInit.countP_set_exchange ConcInit.isRunning σ.tasks i
          (ConcInit.TaskSt.running inv) (ConcInit.TaskSt.done none) hg
        simp [ConcInit.isRunning] at hx
        have hstep : ConcInit.step outcome σ i
            = { tasks := σ.tasks.set i (ConcInit.TaskSt.done none),
                cache := σ.cache, initCount := σ.initCount } := by
          simp only [ConcInit.step, hg]
          rw [if_neg ho]
        rw [hstep]
        simp only [ConcInit.inFlight] at h ⊢
        omega
    | done r =>
      have hstep : ConcInit.step outcome σ i = σ := by
        simp only [ConcInit.step, hg]
      rw [hstep]; exact h

theorem ConcInit.mem_set_self :
    ∀ (l : List ConcInit.TaskSt) (i : ℕ) (st v : ConcInit.TaskSt),
      l[i]? = some st → v ∈ l.set i v := by
  intro l
  induction l with
  | nil => intro i st v h; simp at h
  | cons b t ih =>
    intro i st v h
    cases i with
    | zero => simp
    | succ j =>
      simp only [List.getElem?_cons_succ] at h
      exact List.mem_cons_of_mem _ (ih j st v h)

theorem ConcInit.step_InvS (outcome : ℕ → Bool) (hout : outcome 0 = true)
    (σ : ConcInit.CState) (i : ℕ) (h : ConcInit.InvS σ) :
    ConcInit.InvS (ConcInit.step outcome σ i) := by
  obtain ⟨h1, h2, h3, h4, h5, h6, h7⟩ := h
  cases hg : σ.tasks[i]? with
  | none =>
    have hstep : ConcInit.step outcome σ i = σ := by
      simp only [ConcInit.step, hg]
    rw [hstep]
    exact ⟨h1, h2, h3, h4, h5, h6, h7⟩
  | some st =>
    have hmem_st : st ∈ σ.tasks := List.getElem?_mem hg
    cases st with
    | start =>
      cases hc : σ.cache with
      | some d =>
        have hd0 : d = 0 := by
          rcases h6 with h6 | h6 <;> rw [hc] at h6
          · exact Option.noConfusion h6
          · exact Option.some.inj h6
        subst hd0
        have hx := ConcInit.countP_set_exchange ConcInit.isRunning σ.tasks i
          ConcInit.TaskSt.start (ConcInit.TaskSt.done (some 0)) hg
        simp [ConcInit.isRunning] at hx
        have hstep : ConcInit.step outcome σ i
            = { tasks := σ.tasks.set i (ConcInit.TaskSt.done (some 0)),
                cache := σ.cache, initCount := σ.initCount } := by
          simp only [ConcInit.step, hg, hc]
        rw [hstep]
        refine ⟨?_, h2, ?_, ?_, ?_, h6, ?_⟩
        · simp only [ConcInit.inFlight] at h1 ⊢
          omega
        · intro h0
          have := (h3 h0).1
          rw [hc] at this
          exact Option.noConfusion this
        · intro inv' hmem'
          rcases List.mem_or_eq_of_mem_set hmem' with hm | he
          · exact h4 _ hm
          · exact ConcInit.TaskSt.noConfusion he
        · intro hcnt1
          rcases h5 hcnt1 with h5' | h5'
          · exact Or.inl h5'
          · rw [hc] at h5'
            exact Option.noConfusion h5'.1
        · intro r hmem'
          rcases List.mem_or_eq_of_mem_set hmem' with hm | he
          · exact h7 _ hm
          · exact ConcInit.TaskSt.done.inj he
      | none =>
        by_cases hfl : ConcInit.inFlight σ = 0
        · have hcnt0 : σ.initCount = 0 := by
            by_contra hne
            have hcnt1 : σ.initCount = 1 := by omega
            rcases h5 hcnt1 with h5' | h5'
            · rw [hc] at h5'
              exact Option.noConfusion h5'
            · have : 0 < σ.tasks.countP ConcInit.isRunning :=
                List.countP_pos_iff.mpr ⟨_, h5'.2, rfl⟩
              simp only [ConcInit.inFlight] at hfl
              omega
          have hx := ConcInit.countP_set_exchange ConcInit.isRunning σ.tasks i
            ConcInit.TaskSt.start (ConcInit.TaskSt.running σ.initCount) hg
          simp [ConcInit.isRunning] at hx
          have hstep : ConcInit.step outcome σ i
              = { tasks := σ.tasks.set i (ConcInit.TaskSt.running σ.initCount),
                  cache := σ.cache, initCount := σ.initCount + 1 } := by
            simp only [ConcInit.step, hg, hc]
            rw [if_pos hfl]
          rw [hstep, hcnt0]
          refine ⟨?_, by simp, by intro h0; simp at h0, ?_, ?_, Or.inl hc, ?_⟩
          · simp only [ConcInit.inFlight] at hfl ⊢
            rw [hcnt0] at hx
            omega
          · intro inv' hmem'
            rcases List.mem_or_eq_of_mem_set hmem' with hm | he
            · exact h4 _ hm
            · exact ConcInit.TaskSt.running.inj he
          · intro _
            refine Or.inr ⟨hc, ?_⟩
            exact ConcInit.mem_set_self σ.tasks i ConcInit.TaskSt.start _ hg
          · intro r hmem'
            rcases List.mem_or_eq_of_mem_set hmem' with hm | he
            · exact h7 _ hm
            · exact ConcInit.TaskSt.noConfusion he
        · have hx := ConcInit.countP_set_exchange ConcInit.isRunning σ.tasks i
            ConcInit.TaskSt.start ConcInit.TaskSt.waiting hg
          simp [ConcInit.isRunning] at hx
          have hstep : ConcInit.step outcome σ i
              = { tasks := σ.tasks.set i ConcInit.TaskSt.waiting,
                  cache := σ.cache, initCount := σ.initCount } := by
            simp only [ConcInit.step, hg, hc]
            rw [if_neg hfl]
          rw [hstep]
          refine ⟨?_, h2, ?_, ?_, ?_, h6, ?_⟩
          · simp only [ConcInit.inFlight] at h1 ⊢
            omega
          · intro h0
            refine ⟨(h3 h0).1, ?_⟩
            intro st' hmem'
            rcases List.mem_or_eq_of_mem_set hmem' with hm | he
            · exact (h3 h0).2 _ hm
            · exact Or.inr he
          · intro inv' hmem'
            rcases List.mem_or_eq_of_mem_set hmem' with hm | he
            · exact h4 _ hm
            · exact ConcInit.TaskSt.noConfusion he
          · intro hcnt1
            rcases h5 hcnt1 with h5' | h5'
            · exact Or.inl h5'
            · refine Or.inr ⟨h5'.1, ?_⟩
              exact ConcInit.mem_set_of_ne σ.tasks i ConcInit.TaskSt.start _ _
                hg h5'.2 (by intro he; exact ConcInit.TaskSt.noConfusion he)
          · intro r hmem'
            rcases List.mem_or_eq_of_mem_set hmem' with hm | he
            · exact h7 _ hm
            · exact ConcInit.TaskSt.noConfusion he
    | waiting =>
      by_cases hfl : ConcInit.inFlight σ = 0
      · cases hc : σ.cache with
        | some d =>
          have hd0 : d = 0 := by
            rcases h6 with h6 | h6 <;> rw [hc] at h6
            · exact Option.noConfusion h6
            · exact Option.some.inj h6
          subst hd0
          have hx := ConcInit.countP_set_exchange ConcInit.isRunning σ.tasks i
            ConcInit.TaskSt.waiting (ConcInit.TaskSt.done (some 0)) hg
          simp [ConcInit.isRunning] at hx
          have hstep : ConcInit.step outcome σ i
              = { tasks := σ.tasks.set i (ConcInit.TaskSt.done (some 0)),
                  cache := σ.cache, initCount := σ.initCount } := by
            simp only [ConcInit.step, hg, hc]
            rw [if_pos hfl]
          rw [hstep]
          refine ⟨?_, h2, ?_, ?_, ?_, h6, ?_⟩
          · simp only [ConcInit.inFlight] at h1 ⊢
            omega
          · intro h0
            have := (h3 h0).1
            rw [hc] at this
            exact Option.noConfusion this
          · intro inv' hmem'
            rcases List.mem_or_eq_of_mem_set hmem' with hm | he
            · exact h4 _ hm
            · exact ConcInit.TaskSt.noConfusion he
          · intro hcnt1
            rcases h5 hcnt1 with h5' | h5'
            · exact Or.inl h5'
            · rw [hc] at h5'
              exact Option.noConfusion h5'.1
          · intro r hmem'
            rcases List.mem_or_eq_of_mem_set hmem' with hm | he
            · exact h7 _ hm
            · exact ConcInit.TaskSt.done.inj he
        | none =>
          have hcnt0 : σ.initCount = 0 := by
            by_contra hne
            have hcnt1 : σ.initCount = 1 := by omega
            rcases h5 hcnt1 with h5' | h5'
            · rw [hc] at h5'
              exact Option.noConfusion h5'
            · have : 0 < σ.tasks.countP ConcInit.isRunning :=
                List.countP_pos_iff.mpr ⟨_, h5'.2, rfl⟩
              simp only [ConcInit.inFlight] at hfl
              omega
          have hx := ConcInit.countP_set_exchange ConcInit.isRunning σ.tasks i
            ConcInit.TaskSt.waiting (ConcInit.TaskSt.running σ.initCount) hg
          simp [ConcInit.isRunning] at hx
          have hstep : ConcInit.step outcome σ i
              = { tasks := σ.tasks.set i (ConcInit.TaskSt.running σ.initCount),
                  cache := σ.cache, initCount := σ.initCount + 1 } := by
            simp only [ConcInit.step, hg, hc]
            rw [if_pos hfl]
          rw [hstep, hcnt0]
          refine ⟨?_, by simp, by intro h0; simp at h0, ?_, ?_, Or.inl hc, ?_⟩
          · simp only [ConcInit.inFlight] at hfl ⊢
            rw [hcnt0] at hx
            omega
          · intro inv' hmem'
            rcases List.mem_or_eq_of_mem_set hmem' with hm | he
            · exact h4 _ hm
            · exact ConcInit.TaskSt.running.inj he
          · intro _
            refine Or.inr ⟨hc, ?_⟩
            exact ConcInit.mem_set_self σ.tasks i ConcInit.TaskSt.waiting _ hg
          · intro r hmem'
            rcases List.mem_or_eq_of_mem_set hmem' with hm | he
            · exact h7 _ hm
            · exact ConcInit.TaskSt.noConfusion he
      · have hstep : ConcInit.step outcome σ i = σ := by
          simp only [ConcInit.step, hg]
          rw [if_neg hfl]
        rw [hstep]
        exact ⟨h1, h2, h3, h4, h5, h6, h7⟩
    | running inv =>
      have hinv0 : inv = 0 := h4 inv hmem_st
      subst hinv0
      have hcnt1 : σ.initCount = 1 := by
        rcases Nat.eq_zero_or_pos σ.initCount with h0 | hpos
        · have := (h3 h0).2 _ hmem_st
          rcases this with he | he <;> exact ConcInit.TaskSt.noConfusion he
        · omega
      have hx := ConcInit.countP_set_exchange ConcInit.isRunning σ.tasks i
        (ConcInit.TaskSt.running 0) (ConcInit.TaskSt.done (some 0)) hg
      simp [ConcInit.isRunning] at hx
      have hstep : ConcInit.step outcome σ i
          = { tasks := σ.tasks.set i (ConcInit.TaskSt.done (some 0)),
              cache := some 0, initCount := σ.initCount } := by
        simp only [ConcInit.step, hg]
        rw [if_pos hout]
      rw [hstep]
      refine ⟨?_, h2, ?_, ?_, ?_, Or.inr rfl, ?_⟩
      · simp only [ConcInit.inFlight] at h1 ⊢
        omega
      · intro h0
        rw [hcnt1] at h0
        exact Nat.noConfusion h0
      · intro inv' hmem'
        rcases List.mem_or_eq_of_mem_set hmem' with hm | he
        · exact h4 _ hm
        · exact ConcInit.TaskSt.noConfusion he
      · intro _
        exact Or.inl rfl
      · intro r hmem'
        rcases List.mem_or_eq_of_mem_set hmem' with hm | he
        · exact h7 _ hm
        · exact ConcInit.TaskSt.done.inj he
    | done r =>
      have hstep : ConcInit.step outcome σ i = σ := by
        simp only [ConcInit.step, hg]
      rw [hstep]
      exact ⟨h1, h2, h3, h4, h5, h6, h7⟩

theorem ConcInit.run_InvA (outcome : ℕ → Bool) (sched : List ℕ)
    (σ : ConcInit.CState) (h : ConcInit.inFlight σ ≤ 1) :
    ConcInit.inFlight (ConcInit.run outcome σ sched) ≤ 1 := by
  induction sched generalizing σ with
  | nil => exact h
  | cons i rest ih =>
    rw [ConcInit.run, List.foldl_cons, ← ConcInit.run]
    exact ih _ (ConcInit.step_InvA outcome σ i h)

theorem ConcInit.run_InvS (outcome : ℕ → Bool) (hout : outcome 0 = true)
    (sched : List ℕ) (σ : ConcInit.CState) (h : ConcInit.InvS σ) :
    ConcInit.InvS (ConcInit.run outcome σ sched) := by
  induction sched generalizing σ with
  | nil => exact h
  | cons i rest ih =>
    rw [ConcInit.run, List.foldl_cons, ← ConcInit.run]
    exact ih _ (ConcInit.step_InvS outcome hout σ i h)

theorem ConcInit.initState_InvS (n : ℕ) : ConcInit.InvS (ConcInit.initState n) := by
  refine ⟨?_, by simp [ConcInit.initState], ?_, ?_, ?_, Or.inl rfl, ?_⟩
  · have : (List.replicate n ConcInit.TaskSt.start).countP ConcInit.isRunning = 0 := by
      rw [List.countP_eq_zero]
      intro a ha
      rw [List.eq_of_mem_replicate ha]
      simp [ConcInit.isRunning]
    simp only [ConcInit.inFlight, ConcInit.initState]
    omega
  · intro _
    exact ⟨rfl, fun st hst => Or.inl (List.eq_of_mem_replicate hst)⟩
  · intro inv hmem
    exact ConcInit.TaskSt.noConfusion (List.eq_of_mem_replicate hmem)
  · intro h1
    exact Nat.noConfusion h1
  · intro r hmem
    exact ConcInit.TaskSt.noConfusion (List.eq_of_mem_replicate hmem)

/-- Claim C2 (amended): for every interleaving of N concurrent
`get_service` calls for the same previously-unseen kb_id, the per-kb
lock keeps at most one provider initialization in flight at any time
(every reachable state has `inFlight ≤ 1`); when the first
`initialize()` invocation succeeds, it is the only invocation ever
started and every completed caller observes that same cached instance;
when an invocation fails, however, the next caller holding the lock
re-attempts initialization (serially) instead of observing the first
caller's null result. -/
theorem C2_at_most_one_inflight_init (outcome : ℕ → Bool) (n : ℕ) (sched : List ℕ) :
    ConcInit.inFlight (ConcInit.run outcome (ConcInit.initState n) sched) ≤ 1
    ∧ (outcome 0 = true →
        (ConcInit.run outcome (ConcInit.initState n) sched).initCount ≤ 1
        ∧ (∀ r, ConcInit.TaskSt.done r
              ∈ (ConcInit.run outcome (ConcInit.initState n) sched).tasks → r = some 0)
        ∧ ((∀ st ∈ (ConcInit.run outcome (ConcInit.initState n) sched).tasks,
              ∃ r, st = ConcInit.TaskSt.done r) → 0 < n →
            (ConcInit.run outcome (ConcInit.initState n) sched).initCount = 1)) := by
  have hA : ConcInit.inFlight (ConcInit.initState n) ≤ 1 :=
    (ConcInit.initState_InvS n).1
  refine ⟨ConcInit.run_InvA outcome sched _ hA, fun hout => ?_⟩
  have hS := ConcInit.run_InvS outcome hout sched _ (ConcInit.initState_InvS n)
  obtain ⟨_, h2, h3, _, _, _, h7⟩ := hS
  refine ⟨h2, h7, fun halldone hn => ?_⟩
  rcases Nat.eq_zero_or_pos
      (ConcInit.run outcome (ConcInit.initState n) sched).initCount with h0 | hpos
  · exfalso
    have hlen : (ConcInit.run outcome (ConcInit.initState n) sched).tasks.length = n := by
      rw [ConcInit.run_length]
      simp [ConcInit.initState]
    have hne : (ConcInit.run outcome (ConcInit.initState n) sched).tasks ≠ [] := by
      intro he
      rw [he] at hlen
      simp at hlen
      omega
    obtain ⟨st, hst⟩ := List.exists_mem_of_ne_nil _ hne
    obtain ⟨r, rfl⟩ := halldone st hst
    rcases (h3 h0).2 _ hst with he | he <;> exact ConcInit.TaskSt.noConfusion he
  · omega

theorem C2_at_most_one_inflight_init_witness :
    ConcInit.inFlight
        (ConcInit.run (fun _ => true) (ConcInit.initState 2) [0, 1, 0, 1]) ≤ 1
    ∧ (ConcInit.run (fun _ => true) (ConcInit.initState 2) [0, 1, 0, 1]).initCount = 1 := by
  have h := C2_at_most_one_inflight_init (fun _ => true) 2 [0, 1, 0, 1]
  have htasks : (ConcInit.run (fun _ => true) (ConcInit.initState 2) [0, 1, 0, 1]).tasks
      = [ConcInit.TaskSt.done (some 0), ConcInit.TaskSt.done (some 0)] := rfl
  refine ⟨h.1, (h.2 rfl).2.2 ?_ (by decide)⟩
  intro st hst
  rw [htasks] at hst
  rcases List.mem_cons.mp hst with rfl | hst
  · exact ⟨some 0, rfl⟩
  · rcases List.mem_cons.mp hst with rfl | hst
    · exact ⟨some 0, rfl⟩
    · simp at hst

/-- Counterexample to claim C2 as stated: two concurrent callers racing
on a never-seen kb whose initialization fails.  The first caller's
`initialize()` fails and caches nothing; when the second caller then
acquires the lock, the double-check misses and it starts a second
initialization instead of observing the first caller's null result, so
`initialize()` is invoked twice, not exactly once. -/
theorem C2_counterexample :
    (ConcInit.run (fun _ => false) (ConcInit.initState 2) [0, 0, 1, 1]).initCount = 2
    ∧ (ConcInit.run (fun _ => false) (ConcInit.initState 2) [0, 0, 1, 1]).initCount ≠ 1 :=
  ⟨rfl, by decide⟩

theorem LoadItems.itemsAdds_acc (env : LoadItems.LoadEnv) (kb : String) :
    ∀ (items : List LoadItems.KItem) (acc : List LoadItems.Ev) (cv : Option String),
      items.foldl
          (fun a item =>
            let r := LoadItems.itemAdds env kb item a.2
            (a.1 ++ r.1, r.2))
          (acc, cv)
        = (acc ++ (LoadItems.itemsAdds env kb items cv).1,
            (LoadItems.itemsAdds env kb items cv).2) := by
  intro items
  induction items with
  | nil => intro acc cv; simp [LoadItems.itemsAdds]
  | cons it rest ih =>
    intro acc cv
    simp only [List.foldl_cons]
    rw [ih]
    have h2 : LoadItems.itemsAdds env kb (it :: rest) cv
        = (([] : List LoadItems.Ev) ++ (LoadItems.itemAdds env kb it cv).1
              ++ (LoadItems.itemsAdds env kb rest (LoadItems.itemAdds env kb it cv).2).1,
            (LoadItems.itemsAdds env kb rest (LoadItems.itemAdds env kb it cv).2).2) := by
      unfold LoadItems.itemsAdds
      simp only [List.foldl_cons]
      rw [ih]
      rfl
    rw [h2]
    simp [List.append_assoc]

theorem LoadItems.itemsAdds_cons (env : LoadItems.LoadEnv) (kb : String)
    (it : LoadItems.KItem) (rest : List LoadItems.KItem) (cv : Option String) :
    (LoadItems.itemsAdds env kb (it :: rest) cv).1
      = (LoadItems.itemAdds env kb it cv).1
          ++ (LoadItems.itemsAdds env kb rest (LoadItems.itemAdds env kb it cv).2).1 := by
  unfold LoadItems.itemsAdds
  simp only [List.foldl_cons]
  rw [LoadItems.itemsAdds_acc]
  simp [LoadItems.itemsAdds]

theorem LoadItems.itemsAdds_only_adds (env : LoadItems.LoadEnv) (kb : String) :
    ∀ (items : List LoadItems.KItem) (cv : Option String)
      (e : LoadItems.Ev), e ∈ (LoadItems.itemsAdds env kb items cv).1 →
      ∃ d c, e = LoadItems.Ev.add d c := by
  intro items
  induction items with
  | nil => intro cv e he; simp [LoadItems.itemsAdds] at he
  | cons it rest ih =>
    intro cv e he
    rw [LoadItems.itemsAdds_cons] at he
    rcases List.mem_append.mp he with hm | hm
    · obtain ⟨p, _, rfl⟩ := List.mem_map.mp hm
      exact ⟨p.1, p.2, rfl⟩
    · exact ih _ e hm

theorem LoadItems.itemsAdds_text (env : LoadItems.LoadEnv) (kb : String) :
    ∀ (items : List LoadItems.KItem) (cv : Option String),
      (∀ it ∈ items, it.type ≠ "file") →
      (LoadItems.itemsAdds env kb items cv).1
        = items.map (fun it => LoadItems.Ev.add (LoadItems.contentDocId kb) it.content) := by
  intro items
  induction items with
  | nil => intro cv _; simp [LoadItems.itemsAdds]
  | cons it rest ih =>
    intro cv hall
    rw [LoadItems.itemsAdds_cons]
    have hty : it.type ≠ "file" := hall it (List.mem_cons_self _ _)
    have h1 : (LoadItems.itemAdds env kb it cv).1
        = [LoadItems.Ev.add (LoadItems.contentDocId kb) it.content] := by
      simp [LoadItems.itemAdds, LoadItems.resolveItem, hty]
    rw [h1, ih _ (fun x hx => hall x (List.mem_cons_of_mem _ hx))]
    simp

theorem LoadItems.groupKeys_single (kb : String) :
    ∀ (items : List LoadItems.KItem), items ≠ [] →
      (∀ it ∈ items, it.id = kb) → LoadItems.groupKeys items = [kb] := by
  have haux : ∀ (l : List LoadItems.KItem), (∀ it ∈ l, it.id = kb) →
      l.foldl (fun ks item => if item.id ∈ ks then ks else ks ++ [item.id]) [kb]
        = [kb] := by
    intro l
    induction l with
    | nil => intro _; rfl
    | cons it rest ih =>
      intro hall
      simp only [List.foldl_cons, hall it (List.mem_cons_self _ _), List.mem_singleton,
        if_pos rfl]
      exact ih (fun x hx => hall x (List.mem_cons_of_mem _ hx))
  intro items hne hall
  cases items with
  | nil => exact absurd rfl hne
  | cons it rest =>
    unfold LoadItems.groupKeys
    simp only [List.foldl_cons, List.not_mem_nil, if_neg (fun h => h), List.nil_append,
      hall it (List.mem_cons_self _ _)]
    exact haux rest (fun x hx => hall x (List.mem_cons_of_mem _ hx))

/-- Claim C3 (amended): on `action == "update"` for a knowledge base,
`load_knowledge_items` first fetches all existing doc ids, issues one
delete per existing id, and all those deletes complete before any
`add_document` begins — a KB with 3 pre-existing docs yields exactly 3
delete calls followed only by add calls, in that order.  The adds are
one per `zip(doc_ids, contents)` pair rather than one per declared
sub-content-unit: doc ids are appended before the content is resolved,
and a sub-unit whose content fails to append (a raised extraction, or
the URL branch of manager.py:306 while its stale `content` variable is
unbound) leaves the contents list short, so there can be fewer adds
than sub-units (and the remaining pairings need not match the
sub-units' own contents — see claim C4).  For inline-text items there
is exactly one add per item, pairing `KB:{kb}#content` with the item's
content. -/
theorem C3_update_delete_all_then_add (env : LoadItems.LoadEnv) (kb : String)
    (items : List LoadItems.KItem) (hne : items ≠ [])
    (hall : ∀ it ∈ items, it.id = kb) :
    LoadItems.loadKnowledgeItems env items "update"
      = LoadItems.Ev.getIds kb
          :: ((env.existingIds kb).map LoadItems.Ev.del
            ++ (LoadItems.itemsAdds env kb items none).1)
    ∧ (∀ e ∈ (LoadItems.itemsAdds env kb items none).1,
        ∃ d c, e = LoadItems.Ev.add d c)
    ∧ ((∀ it ∈ items, it.type ≠ "file") →
        (LoadItems.itemsAdds env kb items none).1
          = items.map
              (fun it => LoadItems.Ev.add (LoadItems.contentDocId kb) it.content)) := by
  refine ⟨?_, LoadItems.itemsAdds_only_adds env kb items none,
    LoadItems.itemsAdds_text env kb items none⟩
  unfold LoadItems.loadKnowledgeItems
  rw [LoadItems.groupKeys_single kb items hne hall]
  have hfilter : items.filter (fun it => it.id = kb) = items := by
    rw [List.filter_eq_self]
    intro it hit
    simp [hall it hit]
  simp [hfilter, LoadItems.loadGroup, LoadItems.bulkDeleteEvents]

theorem C3_update_delete_all_then_add_witness :
    LoadItems.loadKnowledgeItems
        ⟨fun _ => ["KB:k#a", "KB:k#b", "KB:k#c"], fun _ => none, fun _ => none⟩
        [⟨"k", "text", "hello", [], "", "", false⟩] "update"
      = LoadItems.Ev.getIds "k"
          :: ((((⟨fun _ => ["KB:k#a", "KB:k#b", "KB:k#c"], fun _ => none,
                fun _ => none⟩ : LoadItems.LoadEnv).existingIds "k").map
                  LoadItems.Ev.del)
            ++ (LoadItems.itemsAdds
                  ⟨fun _ => ["KB:k#a", "KB:k#b", "KB:k#c"], fun _ => none,
                    fun _ => none⟩
                  "k" [⟨"k", "text", "hello", [], "", "", false⟩] none).1) :=
  (C3_update_delete_all_then_add _ "k" _ (by simp)
    (by intro it hit; rcases List.mem_singleton.mp hit with rfl; rfl)).1

/-- Counterexample to claim C3 as stated: a KB with 3 pre-existing docs
updated with one item declaring exactly one file sub-unit, whose
extraction fails.  The trace is exactly the 3 deletes (after the id
fetch) and contains no add at all — not one add per sub-content
unit. -/
theorem C3_counterexample :
    LoadItems.loadKnowledgeItems
        ⟨fun _ => ["KB:k#a", "KB:k#b", "KB:k#c"], fun _ => none, fun _ => none⟩
        [⟨"k", "file", "", ["/bad.pdf"], "", "", false⟩] "update"
      = [LoadItems.Ev.getIds "k", LoadItems.Ev.del "KB:k#a",
          LoadItems.Ev.del "KB:k#b", LoadItems.Ev.del "KB:k#c"]
    ∧ (⟨"k", "file", "", ["/bad.pdf"], "", "", false⟩ : LoadItems.KItem).files.length
        = 1 :=
  ⟨rfl, rfl⟩

/-- Claim C4, evaluated at the failing input: an item with a local file
and a remote-URL file, both of whose extractions succeed.  The doc ids
are built exactly per the `KB:{kb_id}#file_{idx}:{locator}` convention,
but the trace contains no `add_document` at all for the URL's doc id:
at line 306 the source appends the unbound loop variable `content`
instead of the downloaded `temp_content`, the resulting
`UnboundLocalError` is swallowed by the per-file handler, and
`zip(doc_ids, contents)` silently drops the unmatched trailing doc
id. -/
theorem C4_url_file_add_dropped :
    (LoadItems.resolveItem
        ⟨fun _ => [], fun p => if p = "/tmp/x.pdf" then some "XPDF" else none,
          fun u => if u = "https://ex.com/y.docx" then some "YDOC" else none⟩
        "abc" ⟨"abc", "file", "", ["/tmp/x.pdf", "https://ex.com/y.docx"], "", "", false⟩
        none).1
      = ["KB:abc#file_0:/tmp/x.pdf", "KB:abc#file_1:https://ex.com/y.docx"]
    ∧ LoadItems.loadKnowledgeItems
        ⟨fun _ => [], fun p => if p = "/tmp/x.pdf" then some "XPDF" else none,
          fun u => if u = "https://ex.com/y.docx" then some "YDOC" else none⟩
        [⟨"abc", "file", "", ["/tmp/x.pdf", "https://ex.com/y.docx"], "", "", false⟩]
        "create"
      = [LoadItems.Ev.add "KB:abc#file_0:/tmp/x.pdf" "XPDF"] :=
  ⟨rfl, rfl⟩

/-- Claim C5, evaluated at the failing input.  Adding a fresh document
succeeds and stores it; re-adding the same doc id is supposed to
delete-then-create, but the source never awaits the
`delete_document(doc_id)` coroutine (line 82), so nothing is deleted:
the `CREATE` trips the `document_id` uniqueness constraint, the
exception is caught, `add_document` returns `False`, and the store
still holds the old version — not "exactly one Document node" with the
new content.  The last conjunct shows `delete_document` itself would
have removed the document had it actually been awaited. -/
theorem C5_add_document_never_deletes :
    (GraphDB.addDocument (fun s => [s]) "KB:k#content" "v1" "n" "d"
        ⟨[], [], []⟩).1 = true
    ∧ (GraphDB.addDocument (fun s => [s]) "KB:k#content" "v2" "n" "d"
        (GraphDB.addDocument (fun s => [s]) "KB:k#content" "v1" "n" "d"
          ⟨[], [], []⟩).2).1 = false
    ∧ (GraphDB.addDocument (fun s => [s]) "KB:k#content" "v2" "n" "d"
        (GraphDB.addDocument (fun s => [s]) "KB:k#content" "v1" "n" "d"
          ⟨[], [], []⟩).2).2
      = (GraphDB.addDocument (fun s => [s]) "KB:k#content" "v1" "n" "d"
          ⟨[], [], []⟩).2
    ∧ ((GraphDB.addDocument (fun s => [s]) "KB:k#content" "v1" "n" "d"
          ⟨[], [], []⟩).2.docs.map GraphDB.DocNode.content) = ["v1"]
    ∧ (GraphDB.deleteDocument "KB:k#content"
        (GraphDB.addDocument (fun s => [s]) "KB:k#content" "v1" "n" "d"
          ⟨[], [], []⟩).2).2.docs = [] :=
  ⟨rfl, rfl, rfl, rfl, rfl⟩

theorem GraphDB.isPrefixOf_append_cancel (pre a b : List Char) :
    (pre ++ a).isPrefixOf (pre ++ b) = a.isPrefixOf b := by
  induction pre with
  | nil => rfl
  | cons c t ih => simp [List.isPrefixOf, ih]

theorem GraphDB.tag_clash :
    ∀ (k2 k1 rest : List Char), '#' ∉ k1 → '#' ∉ k2 → k1 ≠ k2 →
      (k2 ++ ['#']).isPrefixOf (k1 ++ '#' :: rest) = false := by
  intro k2
  induction k2 with
  | nil =>
    intro k1 rest h1 _ hne
    cases k1 with
    | nil => exact absurd rfl hne
    | cons c t =>
      have hc : ('#' : Char) ≠ c := by
        intro he
        exact h1 (he ▸ List.mem_cons_self c t)
      simp [List.isPrefixOf, hc]
  | cons c2 t2 ih =>
    intro k1 rest h1 h2 hne
    cases k1 with
    | nil =>
      have hc : c2 ≠ '#' := by
        intro he
        exact h2 (he ▸ List.mem_cons_self c2 t2)
      simp [List.isPrefixOf, hc]
    | cons c1 t1 =>
      by_cases hcc : c2 = c1
      · subst hcc
        have ht1 : ('#' : Char) ∉ t1 := fun hm => h1 (List.mem_cons_of_mem _ hm)
        have ht2 : ('#' : Char) ∉ t2 := fun hm => h2 (List.mem_cons_of_mem _ hm)
        have htne : t1 ≠ t2 := by
          intro he
          exact hne (by rw [he])
        simp [List.isPrefixOf, ih t1 rest ht1 ht2 htne]
      · simp [List.isPrefixOf, hcc]

theorem LoadItems.fileStep_id_shape (env : LoadItems.LoadEnv) (kb : String) :
    ∀ (files : List (ℕ × String)) (st : List String × List String × Option String),
      (∀ id ∈ st.1, ∃ rest : List Char,
        id.toList = ("KB:".toList ++ kb.toList) ++ '#' :: rest) →
      ∀ id ∈ (files.foldl (LoadItems.fileStep env kb) st).1,
        ∃ rest : List Char,
          id.toList = ("KB:".toList ++ kb.toList) ++ '#' :: rest := by
  intro files
  induction files with
  | nil => intro st hst id hid; exact hst id hid
  | cons p rest ih =>
    intro st hst id hid
    rw [List.foldl_cons] at hid
    refine ih _ ?_ id hid
    intro id' hid'
    have hid2 : id' ∈ st.1 ++ [LoadItems.fileDocId kb p.1 p.2] := hid'
    rcases List.mem_append.mp hid2 with hm | hm
    · exact hst id' hm
    · rcases List.mem_singleton.mp hm with rfl
      refine ⟨"file_".toList ++ (toString p.1).toList ++ ":".toList ++ p.2.toList, ?_⟩
      have hsharp : ("#file_" : String).toList = '#' :: "file_".toList := by decide
      simp only [LoadItems.fileDocId, String.toList, String.data_append, hsharp]
      simp

theorem LoadItems.resolveItem_id_shape (env : LoadItems.LoadEnv) (kb : String)
    (item : LoadItems.KItem) (cv : Option String) :
    ∀ id ∈ (LoadItems.resolveItem env kb item cv).1,
      ∃ rest : List Char,
        id.toList = ("KB:".toList ++ kb.toList) ++ '#' :: rest := by
  intro id hid
  unfold LoadItems.resolveItem at hid
  split at hid
  · exact LoadItems.fileStep_id_shape env kb item.files.enum ([], [], cv)
      (by intro x hx; simp at hx) id hid
  · rcases List.mem_singleton.mp hid with rfl
    refine ⟨"content".toList, ?_⟩
    have hsharp : ("#content" : String).toList = '#' :: "content".toList := by decide
    simp only [LoadItems.contentDocId, String.toList, String.data_append, hsharp]

/-- Claim C8 (amended): for kb ids not containing the character `#`
(UUIDs never do), documents ingested under one kb id are never returned
by `get_document_ids` for a different kb id, and `get_document_ids`
returns exactly the stored ids carrying the `KB:{kb_id}#` tag as a
literal string head.  (For kb ids containing `#` the tags can alias
and isolation fails — see the counterexample.) -/
theorem C8_kb_id_isolation (kb1 kb2 : String)
    (h1 : ('#' : Char) ∉ kb1.toList) (h2 : ('#' : Char) ∉ kb2.toList)
    (hne : kb1 ≠ kb2) :
    (∀ (env : LoadItems.LoadEnv) (item : LoadItems.KItem) (cv : Option String)
        (id : String) (σ : GraphDB.GStore),
        id ∈ (LoadItems.resolveItem env kb1 item cv).1 →
        id ∉ GraphDB.getDocumentIds kb2 σ)
    ∧ (∀ (σ : GraphDB.GStore) (id : String),
        id ∈ GraphDB.getDocumentIds kb2 σ ↔
          id ∈ σ.docs.map GraphDB.DocNode.id
            ∧ strStartsWith id ("KB:" ++ kb2 ++ "#") = true) := by
  have hchar : ∀ id : String,
      (∃ rest : List Char, id.toList = ("KB:".toList ++ kb1.toList) ++ '#' :: rest) →
      strStartsWith id ("KB:" ++ kb2 ++ "#") = false := by
    intro id ⟨rest, hrest⟩
    have hdne : kb1.toList ≠ kb2.toList := by
      intro he
      apply hne
      have h1' : kb1 = ⟨kb1.data⟩ := rfl
      have h2' : kb2 = ⟨kb2.data⟩ := rfl
      rw [h1', h2']
      exact congrArg String.mk he
    have htag : ("KB:" ++ kb2 ++ "#").toList
        = "KB:".toList ++ (kb2.toList ++ ['#']) := by
      have : ("#" : String).toList = ['#'] := by decide
      simp [String.toList, String.data_append, this]
    unfold strStartsWith
    rw [htag, hrest]
    have hassoc : ("KB:".toList ++ kb1.toList) ++ '#' :: rest
        = "KB:".toList ++ (kb1.toList ++ '#' :: rest) := by simp
    rw [hassoc, GraphDB.isPrefixOf_append_cancel]
    exact GraphDB.tag_clash kb2.toList kb1.toList rest h1 h2 hdne
  constructor
  · intro env item cv id σ hgen hmem
    have hshape := LoadItems.resolveItem_id_shape env kb1 item cv id hgen
    have hfalse := hchar id hshape
    unfold GraphDB.getDocumentIds at hmem
    obtain ⟨d, hd, rfl⟩ := List.mem_map.mp hmem
    have := (List.mem_filter.mp hd).2
    rw [hfalse] at this
    exact Bool.noConfusion this
  · intro σ id
    constructor
    · intro hmem
      unfold GraphDB.getDocumentIds at hmem
      obtain ⟨d, hd, rfl⟩ := List.mem_map.mp hmem
      exact ⟨List.mem_map.mpr ⟨d, (List.mem_filter.mp hd).1, rfl⟩,
        (List.mem_filter.mp hd).2⟩
    · intro ⟨hmem, hpre⟩
      obtain ⟨d, hd, rfl⟩ := List.mem_map.mp hmem
      unfold GraphDB.getDocumentIds
      exact List.mem_map.mpr ⟨d, List.mem_filter.mpr ⟨hd, hpre⟩, rfl⟩

theorem C8_kb_id_isolation_witness :
    "KB:k1#content" ∉ GraphDB.getDocumentIds "k2"
      ⟨[⟨"KB:k1#content", "", "", "x"⟩], [], []⟩ :=
  (C8_kb_id_isolation "k1" "k2" (by decide) (by decide) (by decide)).1
    ⟨fun _ => [], fun _ => none, fun _ => none⟩
    ⟨"k1", "text", "x", [], "", "", false⟩ none "KB:k1#content"
    ⟨[⟨"KB:k1#content", "", "", "x"⟩], [], []⟩ (by decide)

/-- Counterexample to claim C8 as universally stated: kb ids may
contain `#`, and then the composite-key tags alias.  A document
ingested under kb id `a#b` gets doc id `KB:a#b#content`, which
`get_document_ids("a")` returns because it starts with `KB:a#`. -/
theorem C8_counterexample :
    "KB:a#b#content"
        ∈ (LoadItems.resolveItem ⟨fun _ => [], fun _ => none, fun _ => none⟩
            "a#b" ⟨"a#b", "text", "x", [], "", "", false⟩ none).1
    ∧ GraphDB.getDocumentIds "a" ⟨[⟨"KB:a#b#content", "", "", "x"⟩], [], []⟩
        = ["KB:a#b#content"]
    ∧ "a#b" ≠ "a" :=
  ⟨by decide, by decide, by decide⟩

theorem GraphDB.mem_groupDocIds :
    ∀ (rows : List (GraphDB.DocNode × GraphDB.ChunkNode)) (acc : List String)
      (x : String),
      x ∈ rows.foldl (fun ks r => if r.1.id ∈ ks then ks else ks ++ [r.1.id]) acc →
      x ∈ acc ∨ ∃ r ∈ rows, r.1.id = x := by
  intro rows
  induction rows with
  | nil => intro acc x h; exact Or.inl h
  | cons r t ih =>
    intro acc x h
    rw [List.foldl_cons] at h
    rcases ih _ x h with hm | ⟨r', hr', he⟩
    · by_cases hin : r.1.id ∈ acc
      · rw [if_pos hin] at hm
        exact Or.inl hm
      · rw [if_neg hin] at hm
        rcases List.mem_append.mp hm with hm' | hm'
        · exact Or.inl hm'
        · exact Or.inr ⟨r, List.mem_cons_self _ _, (List.mem_singleton.mp hm').symm⟩
    · exact Or.inr ⟨r', List.mem_cons_of_mem _ hr', he⟩

theorem GraphDB.mem_dedupFirst :
    ∀ (ws : List String) (x : String), x ∈ GraphDB.dedupFirst ws → x ∈ ws := by
  have haux : ∀ (ws : List String) (acc : List String) (x : String),
      x ∈ ws.foldl (fun acc w => if w ∈ acc then acc else acc ++ [w]) acc →
      x ∈ acc ∨ x ∈ ws := by
    intro ws
    induction ws with
    | nil => intro acc x h; exact Or.inl h
    | cons w t ih =>
      intro acc x h
      rw [List.foldl_cons] at h
      rcases ih _ x h with hm | hm
      · by_cases hin : w ∈ acc
        · rw [if_pos hin] at hm
          exact Or.inl hm
        · rw [if_neg hin] at hm
          rcases List.mem_append.mp hm with hm' | hm'
          · exact Or.inl hm'
          · exact Or.inr (List.mem_singleton.mp hm' ▸ List.mem_cons_self _ _)
      · exact Or.inr (List.mem_cons_of_mem _ hm)
  intro ws x h
  rcases haux ws [] x h with hm | hm
  · simp at hm
  · exact hm

theorem GraphDB.phase2_score_and_exclusion (q : String) (limit : ℕ)
    (dIds : Option (List String)) (p1 : List GraphDB.GResult) (σ : GraphDB.GStore) :
    ∀ r ∈ GraphDB.phase2 q limit dIds p1 σ,
      r.score = 1 / 2 ∧ r.id ∉ p1.map GraphDB.GResult.id := by
  intro r hr
  unfold GraphDB.phase2 at hr
  obtain ⟨did, hdid, rfl⟩ := List.mem_map.mp hr
  refine ⟨rfl, ?_⟩
  rcases GraphDB.mem_groupDocIds _ [] did hdid with hm | ⟨row, hrow, hide⟩
  · simp at hm
  · unfold GraphDB.contentChunkRows at hrow
    obtain ⟨c, hc, hfm⟩ := List.mem_filterMap.mp hrow
    obtain ⟨d, hfind, hde⟩ := Option.map_eq_some'.mp hfm
    have hdc : d.id = c.docId := by
      have := List.find?_some hfind
      simpa using this
    have hcf := List.mem_of_mem_take hc
    have hprops := (List.mem_filter.mp hcf).2
    simp only [decide_eq_true_eq, Bool.and_eq_true] at hprops
    have hnotin : c.docId ∉ p1.map (fun r => r.id) := by
      simpa using hprops.2.2
    have hrow1 : row.1 = d := by rw [← hde]
    rw [← hide, hrow1, hdc]
    simpa using hnotin

theorem GraphDB.extractKeywords_spec (q : String) :
    (GraphDB.extractKeywords q).length ≤ 15
    ∧ (∀ w ∈ GraphDB.extractKeywords q,
        w ∈ GraphDB.filteredWords q ∧ w ∉ GraphDB.stopWords ∧ 2 < w.length)
    ∧ (GraphDB.extractKeywords q).Sorted
        (fun a b =>
          (GraphDB.filteredWords q).count b ≤ (GraphDB.filteredWords q).count a) := by
  refine ⟨List.length_take_le _ _, ?_, ?_⟩
  · intro w hw
    have hw1 : w ∈ (GraphDB.dedupFirst (GraphDB.filteredWords q)).insertionSort
        (fun a b =>
          (GraphDB.filteredWords q).count b ≤ (GraphDB.filteredWords q).count a) :=
      List.mem_of_mem_take hw
    have hw2 : w ∈ GraphDB.dedupFirst (GraphDB.filteredWords q) :=
      (List.mem_insertionSort _).mp hw1
    have hw3 : w ∈ GraphDB.filteredWords q := GraphDB.mem_dedupFirst _ w hw2
    have hprops := (List.mem_filter.mp hw3).2
    simp only [decide_eq_true_eq, Bool.and_eq_true] at hprops
    refine ⟨hw3, ?_, ?_⟩
    · simpa using hprops.1
    · simpa using hprops.2
  · have htot : IsTotal String
        (fun a b =>
          (GraphDB.filteredWords q).count b ≤ (GraphDB.filteredWords q).count a) :=
      ⟨fun a b => le_total _ _⟩
    have htrans : IsTrans String
        (fun a b =>
          (GraphDB.filteredWords q).count b ≤ (GraphDB.filteredWords q).count a) :=
      ⟨fun _ _ _ h1 h2 => le_trans h2 h1⟩
    exact List.Pairwise.sublist (List.take_sublist _ _)
      (@List.sorted_insertionSort _ _ _ htot htrans _)

theorem GraphDB.search_shape (q : String) (limit : ℕ)
    (dIds : Option (List String)) (σ : GraphDB.GStore) :
    GraphDB.search q limit dIds σ
      = ((GraphDB.phase1 (GraphDB.extractKeywords q) limit dIds σ
          ++ (if (GraphDB.phase1 (GraphDB.extractKeywords q) limit dIds σ).length < limit
              then GraphDB.phase2 q limit dIds
                (GraphDB.phase1 (GraphDB.extractKeywords q) limit dIds σ) σ
              else [])).insertionSort GraphDB.gScoreDesc).take limit := by
  unfold GraphDB.search
  by_cases h : (GraphDB.phase1 (GraphDB.extractKeywords q) limit dIds σ).length < limit
    <;> simp [h]

theorem GraphDB.demoAB_phase1_eval :
    GraphDB.phase1 ["refund", "policy"] 1 none GraphDB.demoStoreAB
      = [⟨"DA", "chunk A text", "", "", 1, 1⟩,
         ⟨"DB", "chunk B text", "", "", 1 / 2, 1⟩] := by
  have hrows : GraphDB.keywordChunkRows ["refund", "policy"] 1 none GraphDB.demoStoreAB
      = [(⟨"DA", "", "", "da"⟩,
          ⟨"DA_chunk_0", "DA", "chunk A text", 0, 1, ["refund", "policy"]⟩),
         (⟨"DB", "", "", "db"⟩,
          ⟨"DB_chunk_0", "DB", "chunk B text", 0, 1, ["refund"]⟩)] := by decide
  have hmA : GraphDB.chunkMatches ["refund", "policy"]
      ⟨"DA_chunk_0", "DA", "chunk A text", 0, 1, ["refund", "policy"]⟩ = 2 := by decide
  have hmB : GraphDB.chunkMatches ["refund", "policy"]
      ⟨"DB_chunk_0", "DB", "chunk B text", 0, 1, ["refund"]⟩ = 1 := by decide
  have hgroup : GraphDB.groupDocIds
      [(⟨"DA", "", "", "da"⟩,
        ⟨"DA_chunk_0", "DA", "chunk A text", 0, 1, ["refund", "policy"]⟩),
       (⟨"DB", "", "", "db"⟩,
        ⟨"DB_chunk_0", "DB", "chunk B text", 0, 1, ["refund"]⟩)]
      = ["DA", "DB"] := by decide
  simp only [GraphDB.phase1]
  rw [if_neg (by decide)]
  rw [hrows, hgroup]
  simp +decide [GraphDB.chunksOf, GraphDB.combineChunks, GraphDB.bestScore,
    hmA, hmB, List.insertionSort, List.orderedInsert, String.intercalate]

theorem GraphDB.demoAB_search_eval :
    (GraphDB.search "refund policy" 1 none GraphDB.demoStoreAB).map
        (fun r => (r.id, r.score)) = [("DA", 1)] := by
  have hkw : GraphDB.extractKeywords "refund policy" = ["refund", "policy"] := by decide
  simp only [GraphDB.search, hkw, GraphDB.demoAB_phase1_eval]
  rw [if_neg (by decide)]
  norm_num [List.insertionSort, List.orderedInsert, GraphDB.gScoreDesc]

theorem GraphDB.demoSplit_phase1_eval :
    GraphDB.phase1 ["refund", "policy"] 5 none GraphDB.demoStoreSplit
      = [⟨"D", "refund stuff\npolicy stuff", "", "", 1 / 2, 2⟩] := by
  have hrows : GraphDB.keywordChunkRows ["refund", "policy"] 5 none GraphDB.demoStoreSplit
      = [(⟨"D", "", "", "doc"⟩, ⟨"D_chunk_0", "D", "refund stuff", 0, 2, ["refund"]⟩),
         (⟨"D", "", "", "doc"⟩, ⟨"D_chunk_1", "D", "policy stuff", 1, 2, ["policy"]⟩)] := by
    decide
  have hm0 : GraphDB.chunkMatches ["refund", "policy"]
      ⟨"D_chunk_0", "D", "refund stuff", 0, 2, ["refund"]⟩ = 1 := by decide
  have hm1 : GraphDB.chunkMatches ["refund", "policy"]
      ⟨"D_chunk_1", "D", "policy stuff", 1, 2, ["policy"]⟩ = 1 := by decide
  have hgroup : GraphDB.groupDocIds
      [(⟨"D", "", "", "doc"⟩, ⟨"D_chunk_0", "D", "refund stuff", 0, 2, ["refund"]⟩),
       (⟨"D", "", "", "doc"⟩, ⟨"D_chunk_1", "D", "policy stuff", 1, 2, ["policy"]⟩)]
      = ["D"] := by decide
  simp only [GraphDB.phase1]
  rw [if_neg (by decide)]
  rw [hrows, hgroup]
  simp +decide [GraphDB.chunksOf, GraphDB.combineChunks, GraphDB.bestScore,
    hm0, hm1, List.insertionSort, List.orderedInsert, String.intercalate]

theorem GraphDB.demoSplit_search_eval :
    (GraphDB.search "refund policy" 5 none GraphDB.demoStoreSplit).map
        GraphDB.GResult.score = [1 / 2] := by
  have hkw : GraphDB.extractKeywords "refund policy" = ["refund", "policy"] := by decide
  have hp2 : GraphDB.phase2 "refund policy" 5 none
      [⟨"D", "refund stuff\npolicy stuff", "", "", 1 / 2, 2⟩] GraphDB.demoStoreSplit
      = [] := by decide
  simp only [GraphDB.search, hkw, GraphDB.demoSplit_phase1_eval]
  rw [if_pos (by decide), hp2]
  norm_num [List.insertionSort, List.orderedInsert, GraphDB.gScoreDesc]

theorem GraphDB.demoSplit_claim_score :
    GraphDB.claimDocScore "refund policy" "D" GraphDB.demoStoreSplit = 1 := by
  have hkw : GraphDB.extractKeywords "refund policy" = ["refund", "policy"] := by decide
  have hfilter : (["refund", "policy"].filter (fun k =>
      GraphDB.demoStoreSplit.chunks.any fun c => decide (c.docId = "D" ∧ k ∈ c.keywords)))
      = ["refund", "policy"] := by decide
  simp only [GraphDB.claimDocScore, hkw, hfilter]
  norm_num

/-- Claim C9 (amended): the graph provider's search extracts keywords
(lowercased, punctuation stripped, stop-words and tokens of length <= 2
dropped, ranked stably by frequency, top 15), scores each matching
chunk as (its distinct matched keywords) / (total query keywords) and
scores a document as the MAXIMUM over its matched chunks (not the
distinct keywords pooled across chunks), considering only the top
3*limit chunks by match count; when fewer than `limit` documents are
found it supplements with whole-query substring-containment matches at
fixed score 0.5, excluding documents already found (drawing from at
most 3*(limit - found) chunks); each document's matched chunks are
concatenated in chunk-index order; the final list is sorted by score
descending and truncated to `limit`.  In the concrete scenario (chunk A
linked to both `refund` and `policy`, chunk B in another document
linked to `refund` only, limit 1) only chunk A's document is returned,
with score 1. -/
theorem C9_graph_search_algorithm :
    (∀ (q : String) (limit : ℕ) (dIds : Option (List String)) (σ : GraphDB.GStore),
        GraphDB.search q limit dIds σ
            = ((GraphDB.phase1 (GraphDB.extractKeywords q) limit dIds σ
                ++ (if (GraphDB.phase1 (GraphDB.extractKeywords q) limit dIds σ).length
                      < limit
                    then GraphDB.phase2 q limit dIds
                      (GraphDB.phase1 (GraphDB.extractKeywords q) limit dIds σ) σ
                    else [])).insertionSort GraphDB.gScoreDesc).take limit
          ∧ (GraphDB.search q limit dIds σ).Sorted GraphDB.gScoreDesc
          ∧ (GraphDB.search q limit dIds σ).length ≤ limit
          ∧ (∀ r ∈ GraphDB.phase2 q limit dIds
                (GraphDB.phase1 (GraphDB.extractKeywords q) limit dIds σ) σ,
              r.score = 1 / 2
                ∧ r.id ∉ (GraphDB.phase1 (GraphDB.extractKeywords q) limit dIds σ).map
                    GraphDB.GResult.id)
          ∧ (GraphDB.extractKeywords q).length ≤ 15
          ∧ (∀ w ∈ GraphDB.extractKeywords q, w ∉ GraphDB.stopWords ∧ 2 < w.length)
          ∧ (GraphDB.extractKeywords q).Sorted
              (fun a b =>
                (GraphDB.filteredWords q).count b
                  ≤ (GraphDB.filteredWords q).count a))
    ∧ (GraphDB.search "refund policy" 1 none GraphDB.demoStoreAB).map
        (fun r => (r.id, r.score)) = [("DA", 1)] := by
  constructor
  · intro q limit dIds σ
    refine ⟨GraphDB.search_shape q limit dIds σ, ?_, ?_,
      GraphDB.phase2_score_and_exclusion q limit dIds _ σ,
      (GraphDB.extractKeywords_spec q).1,
      fun w hw => ((GraphDB.extractKeywords_spec q).2.1 w hw).2,
      (GraphDB.extractKeywords_spec q).2.2⟩
    · unfold GraphDB.search
      exact List.Pairwise.sublist (List.take_sublist _ _)
        (List.sorted_insertionSort GraphDB.gScoreDesc _)
    · unfold GraphDB.search
      exact List.length_take_le _ _
  · exact GraphDB.demoAB_search_eval

theorem C9_graph_search_algorithm_witness :
    (GraphDB.search "refund policy" 1 none GraphDB.demoStoreAB).map
        (fun r => (r.id, r.score)) = [("DA", 1)] :=
  C9_graph_search_algorithm.2

/-- Counterexample to claim C9 as stated: a single document whose two
chunks each carry one of the two query keywords.  Under the claim's
document-scoring rule ((distinct matched keywords)/(total query
keywords), pooled per document) the document scores 2/2 = 1; the code
scores each chunk separately and takes the document's best chunk, so it
returns score 1/2. -/
theorem C9_counterexample :
    (GraphDB.search "refund policy" 5 none GraphDB.demoStoreSplit).map
        GraphDB.GResult.score = [1 / 2]
    ∧ GraphDB.claimDocScore "refund policy" "D" GraphDB.demoStoreSplit = 1
    ∧ ((1 : ℚ) / 2) ≠ 1 :=
  ⟨GraphDB.demoSplit_search_eval, GraphDB.demoSplit_claim_score, by norm_num⟩
